import Mathlib

/-!
# vanityurl: package normalisation and path resolution

A shallow embedding of `package.go`, `detect.go`, `vcs.go`, `errors.go`,
`resolver.go` and `server.go`.

Conventions of the embedding.

* A Go `string` is a Lean `String`.  Go compares and measures strings by bytes;
  on valid UTF-8 the byte-wise lexicographic order is the code-point order, so
  `<` on strings is modelled by the lexicographic order on the characters
  (`strLt`), and `len` by the number of UTF-8 bytes (`goLen`).
* A function returning `(T, error)` returns a pair `T × Option GoError`;
  `none` is the `nil` error.
* The Go standard library package `net/url` is not part of the repository.
  Functions that call it take the three operations they use as a parameter
  `NetURL`; `goURL` is an executable instance used to evaluate examples.
* The template engine is not part of the repository either: `ServeHTTP` takes
  the bytes that `RenderDocument` writes as a parameter.  A handler maps the
  state of the response writer it receives to the state when it returns.
-/

namespace Vanityurl

/-! ## Strings -/

/-- Go `len(s)` on a list of characters: the number of bytes of the UTF-8 encoding. -/
def byteLen : List Char → Nat
  | [] => 0
  | c :: cs => c.utf8Size + byteLen cs

/-- Go `len(s)`. -/
def goLen (s : String) : Nat := byteLen s.data

/-- Lexicographic `<` on lists of characters (Go `a < b` on strings). -/
def lexLt : List Char → List Char → Bool
  | _, [] => false
  | [], _ :: _ => true
  | a :: as, b :: bs =>
    if a.toNat < b.toNat then true
    else if b.toNat < a.toNat then false
    else lexLt as bs

/-- Go `a < b` on strings. -/
def strLt (a b : String) : Bool := lexLt a.data b.data

/-- Go `a >= b` on strings. -/
def strGe (a b : String) : Bool := !strLt a b

/-- Go `strings.Compare(a, b)`. -/
def stringsCompare (a b : String) : Int :=
  if strLt a b then -1 else if strLt b a then 1 else 0

/-- Go `strings.HasPrefix(s, pre)`. -/
def HasPrefix (s pre : String) : Bool := pre.data.isPrefixOf s.data

/-- Go `strings.HasSuffix(s, suf)`. -/
def HasSuffix (s suf : String) : Bool := suf.data.reverse.isPrefixOf s.data.reverse

/-- Go `strings.TrimPrefix(s, pre)`: `s` without the leading `pre`, or `s` itself. -/
def TrimPrefix (s pre : String) : String :=
  if HasPrefix s pre then ⟨s.data.drop pre.data.length⟩ else s

/-- Go `strings.TrimSuffix(s, suf)`: `s` without the trailing `suf`, or `s` itself. -/
def TrimSuffix (s suf : String) : String :=
  if HasSuffix s suf then ⟨s.data.take (s.data.length - suf.data.length)⟩ else s

/-- Go `unicode.IsSpace`. -/
def isSpace (c : Char) : Bool :=
  let n := c.toNat
  (9 ≤ n && n ≤ 13) || n == 32 || n == 0x85 || n == 0xA0 || n == 0x1680
    || (0x2000 ≤ n && n ≤ 0x200A) || n == 0x2028 || n == 0x2029 || n == 0x202F
    || n == 0x205F || n == 0x3000

/-- Go `strings.TrimSpace` on a list of characters. -/
def trimSpaceList (l : List Char) : List Char :=
  ((l.dropWhile isSpace).reverse.dropWhile isSpace).reverse

/-- Go `strings.TrimSpace(s)`: `s` without leading and trailing white space. -/
def TrimSpace (s : String) : String := ⟨trimSpaceList s.data⟩

/-- Go `cmp.Or(vals...)`: the first argument that is not the zero value, else the zero value. -/
def cmpOr {α : Type} [DecidableEq α] (zero : α) : List α → α
  | [] => zero
  | v :: vs => if v ≠ zero then v else cmpOr zero vs

/-! ## Errors (`errors.go`) -/

/-- Go error values.  `leaf` is an error made without `%w` (a sentinel of this
package or an error of a library); `wrap` and `wrap2` are the results of
`fmt.Errorf` with one and with two `%w` verbs.  The string is the text of
`Error()`.  Identity of error values is structural equality. -/
inductive GoError where
  | leaf (msg : String)
  | wrap (msg : String) (e : GoError)
  | wrap2 (msg : String) (e₁ e₂ : GoError)
  deriving DecidableEq, Repr

/-- Go `err.Error()`. -/
def GoError.Error : GoError → String
  | .leaf m => m
  | .wrap m _ => m
  | .wrap2 m _ _ => m

/-- Go `errors.Is(err, target)`: `err` or an error it wraps is `target`. -/
def errorsIs : GoError → GoError → Bool
  | .leaf m, t => decide (GoError.leaf m = t)
  | .wrap m e, t => decide (GoError.wrap m e = t) || errorsIs e t
  | .wrap2 m e₁ e₂, t => decide (GoError.wrap2 m e₁ e₂ = t) || errorsIs e₁ t || errorsIs e₂ t

/-- Go `errors.Is(err, target)` for an `error` interface value that may be `nil`. -/
def errorsIsOpt : Option GoError → GoError → Bool
  | none, _ => false
  | some e, t => errorsIs e t

def ErrPackageNotFound : GoError := .leaf "vanityurl: package not found"
def ErrInvalidPackage : GoError := .leaf "vanityurl: invalid package"
def ErrInvalidVCS : GoError := .leaf "vanityurl: invalid vcs"

/-! ## Version control kinds (`vcs.go`) -/

/-- Go `type VCS uint8`. -/
abbrev VCS := Nat

def Git : VCS := 1
def Svn : VCS := 2
def Mercurial : VCS := 3
def Bazaar : VCS := 4

/-- The keys of the map `validVCS`. -/
def validVCS : List VCS := [Git, Svn, Mercurial, Bazaar]

/-- Go `VCS.Valid`: membership in `validVCS`. -/
def VCS.Valid (vcs : VCS) : Bool := validVCS.contains vcs

/-- The map `vcsMapStrValues`; a missing key gives the empty string. -/
def vcsMapStrValues (vcs : VCS) : String :=
  if vcs = Git then "git"
  else if vcs = Svn then "svn"
  else if vcs = Mercurial then "hg"
  else if vcs = Bazaar then "bzr"
  else ""

/-- The map `vcsMapStrKeys`, with the `ok` flag of the lookup as `Option`. -/
def vcsMapStrKeys (str : String) : Option VCS :=
  if str = "git" then some Git
  else if str = "svn" then some Svn
  else if str = "hg" then some Mercurial
  else if str = "bzr" then some Bazaar
  else none

/-- Go `VCS.String`. -/
def VCS.String (vcs : VCS) : String := cmpOr "" [vcsMapStrValues vcs, "unspecified"]

def ParseVCS (str : String) : VCS × Option GoError :=
  match vcsMapStrKeys str with
  | none => (0, some ErrInvalidVCS)
  | some vcs => (vcs, none)

/-! ## The `net/url` operations used by the package -/

/-- The fields of Go `url.URL` that the package reads. -/
structure URL where
  Scheme : String
  Host : String
  Path : String
  RawQuery : String
  deriving DecidableEq, Repr

/-- The operations of `net/url` used by the package: `url.Parse`,
`len(u.Query())` and `u.Hostname()`. -/
structure NetURL where
  Parse : String → Except GoError URL
  QueryLen : URL → Nat
  Hostname : URL → String

/-! ## Host detection (`detect.go`) -/

def hostGithub : String := "github.com"
def hostGitlab : String := "gitlab.com"
def hostBitbucket : String := "bitbucket.org"

/-- The map `hostVCSMap`; a missing key gives the zero value, as a Go map index does. -/
def hostVCSMap (host : String) : VCS :=
  if host = hostGithub then Git
  else if host = hostGitlab then Git
  else if host = hostBitbucket then Git
  else 0

def displayGithubOrGitlab (repositoryURL : String) : String :=
  repositoryURL ++ " " ++ repositoryURL ++ "/tree/master\x7b/dir\x7d " ++ repositoryURL
    ++ "/blob/master\x7b/dir\x7d/\x7bfile\x7d#L\x7bline\x7d"

def displayBitbucket (repositoryURL : String) : String :=
  repositoryURL ++ " " ++ repositoryURL ++ "/src/default\x7b/dir\x7d " ++ repositoryURL
    ++ "/src/default\x7b/dir\x7d/\x7bfile\x7d#\x7bfile\x7d-\x7bline\x7d"

/-- The map `hostDisplayMap`, with the `ok` flag of the lookup as `Option`. -/
def hostDisplayMap (host : String) : Option (String → String) :=
  if host = hostGithub then some displayGithubOrGitlab
  else if host = hostGitlab then some displayGithubOrGitlab
  else if host = hostBitbucket then some displayBitbucket
  else none

def DetectVCS (lib : NetURL) (repoURL : String) : VCS :=
  match lib.Parse repoURL with
  | .error _ => 0
  | .ok url => hostVCSMap (lib.Hostname url)

def DetectDisplay (lib : NetURL) (repoURL : String) : String :=
  match lib.Parse repoURL with
  | .error _ => ""
  | .ok url =>
    match hostDisplayMap (lib.Hostname url) with
    | none => ""
    | some fn => fn repoURL

/-! ## Packages (`package.go`) -/

structure Package where
  Path : String
  VCS : VCS
  Display : String
  RepositoryURL : String
  deriving DecidableEq, Repr

/-- The zero value `Package{}`. -/
def Package.zero : Package := { Path := "", VCS := 0, Display := "", RepositoryURL := "" }

/-- The clean-up of the path field at the start of `AdjustFields`. -/
def adjustPath (path : String) : String :=
  let p := TrimSpace path
  let p := TrimSuffix p "/"
  if !HasPrefix p "/" then "/" ++ p else p

def AdjustFields (lib : NetURL) (pkg : Package) : Package × Option GoError :=
  let pkg := { pkg with Path := adjustPath pkg.Path }
  match lib.Parse (TrimSpace pkg.RepositoryURL) with
  | .error err =>
    (Package.zero, some (.wrap2
      (ErrInvalidPackage.Error ++ ": invalid repository url: " ++ err.Error) ErrInvalidPackage err))
  | .ok parsedURL =>
    if lib.QueryLen parsedURL > 0 then
      (Package.zero, some (.wrap
        (ErrInvalidPackage.Error ++ ": repository url contains query parameters: "
          ++ parsedURL.RawQuery) ErrInvalidPackage))
    else if !(["https", "http"].contains parsedURL.Scheme) then
      (Package.zero, some (.wrap
        (ErrInvalidPackage.Error ++ ": invalid repository url schema: " ++ parsedURL.Scheme)
        ErrInvalidPackage))
    else
      let pkg := { pkg with
        RepositoryURL := parsedURL.Scheme ++ "://" ++ parsedURL.Host ++ parsedURL.Path }
      let pkg := { pkg with VCS := cmpOr 0 [pkg.VCS, DetectVCS lib pkg.RepositoryURL] }
      if !pkg.VCS.Valid then
        (Package.zero, some (.wrap
          (ErrInvalidPackage.Error ++ ": could not detect VCS") ErrInvalidPackage))
      else
        let pkg := { pkg with Display := cmpOr "" [pkg.Display, DetectDisplay lib pkg.RepositoryURL] }
        (pkg, none)

/-! ## The static resolver (`resolver.go`) -/

/-- Go `type resolver struct { pset []Package }`. -/
structure resolver where
  pset : List Package
  deriving DecidableEq, Repr

/-- Insertion of `x` before the first element that `cmp` does not put before it. -/
def sortInsert {α : Type} (cmp : α → α → Int) (x : α) : List α → List α
  | [] => [x]
  | y :: ys => if cmp x y ≤ 0 then x :: y :: ys else y :: sortInsert cmp x ys

/-- Go `slices.SortFunc(s, cmp)`: `s` in ascending order of `cmp`.  The library
does not promise an order among elements that compare equal; this model keeps
their input order. -/
def slicesSortFunc {α : Type} (cmp : α → α → Int) : List α → List α
  | [] => []
  | x :: xs => sortInsert cmp x (slicesSortFunc cmp xs)

/-- The loop of `NewResolver`: `pathMap` holds the adjusted paths of the records
already seen; the result is the adjusted records in input order, or the first error. -/
def newResolverLoop (lib : NetURL) : List Package → List String → Except GoError (List Package)
  | [], _ => .ok []
  | pkg :: rest, pathMap =>
    if pathMap.contains pkg.Path then
      .error (.wrap (ErrInvalidPackage.Error ++ ": duplicate paths: " ++ pkg.Path)
        ErrInvalidPackage)
    else
      match AdjustFields lib pkg with
      | (_, some err) => .error err
      | (adj, none) =>
        match newResolverLoop lib rest (adj.Path :: pathMap) with
        | .error err => .error err
        | .ok adjs => .ok (adj :: adjs)

def NewResolver (lib : NetURL) (pset : List Package) : Option resolver × Option GoError :=
  match newResolverLoop lib pset [] with
  | .error err => (none, some err)
  | .ok adjs =>
    (some ⟨slicesSortFunc (fun a b => stringsCompare a.Path b.Path) adjs⟩, none)

/-- The loop of Go `sort.Search`, with `fuel` bounding the number of iterations. -/
def searchLoop (f : Nat → Bool) : Nat → Nat → Nat → Nat
  | 0, i, _ => i
  | fuel + 1, i, j =>
    if i < j then
      let h := (i + j) / 2
      if !f h then searchLoop f fuel (h + 1) j else searchLoop f fuel i h
    else i

/-- Go `sort.Search(n, f)`: binary search for the smallest index in `[0, n)` at
which `f` holds, `n` if there is none.  The interval shrinks at every
iteration, so `n` iterations are enough. -/
def sortSearch (n : Nat) (f : Nat → Bool) : Nat := searchLoop f n 0 n

/-- Go `r.pset[i]` for an index in range. -/
def psetAt (pset : List Package) (i : Nat) : Package := pset.getD i Package.zero

/-- One iteration of the scan of `ResolvePackage`; the state is `match` and
`matchSubpathLen`. -/
def scanStep (path : String) (st : Option Package × Nat) (pkg : Package) :
    Option Package × Nat :=
  if goLen pkg.Path ≥ goLen path then st
  else
    let subpath := TrimPrefix path (pkg.Path ++ "/")
    if goLen subpath < st.2 then (some pkg, goLen subpath) else st

/-- The scan `for j := 0; j < i; j++` of `ResolvePackage`. -/
def scanLoop (pset : List Package) (i : Nat) (path : String) : Option Package × Nat :=
  (pset.take i).foldl (scanStep path) (none, goLen path)

def resolver.ResolvePackage (r : resolver) (path : String) : Package × Option GoError :=
  let i := sortSearch r.pset.length (fun i => strGe (psetAt r.pset i).Path path)
  if i < r.pset.length ∧ (psetAt r.pset i).Path = path then
    (psetAt r.pset i, none)
  else if i > 0 ∧ HasPrefix path ((psetAt r.pset (i - 1)).Path ++ "/") then
    (psetAt r.pset (i - 1), none)
  else
    match (scanLoop r.pset i path).1 with
    | some pkg => (pkg, none)
    | none => (Package.zero, some ErrPackageNotFound)

/-! ## The composite resolver (`resolver.go`) -/

/-- Go `type Resolver interface`: a value with the method `ResolvePackage`.  The
context argument is not used by any implementation of the package and is left out. -/
structure Resolver where
  ResolvePackage : String → Package × Option GoError

/-- The static resolver as a value of the interface `Resolver`. -/
def resolver.toResolver (r : resolver) : Resolver := ⟨r.ResolvePackage⟩

/-- Go `type multiResolver struct { rset []Resolver }`. -/
structure multiResolver where
  rset : List Resolver

/-- The loop `for _, rr := range r.rset` of `multiResolver.ResolvePackage`,
with the return that follows it. -/
def multiResolveLoop : List Resolver → String → Package × Option GoError
  | [], _ => (Package.zero, some ErrPackageNotFound)
  | rr :: rest, path =>
    match rr.ResolvePackage path with
    | (pkg, err) =>
      if errorsIsOpt err ErrPackageNotFound then multiResolveLoop rest path
      else if err ≠ none then (Package.zero, err)
      else (pkg, none)

def multiResolver.ResolvePackage (r : multiResolver) (path : String) :
    Package × Option GoError :=
  multiResolveLoop r.rset path

def NewMultiResolver (rset : List Resolver) : Resolver :=
  ⟨multiResolver.ResolvePackage ⟨rset⟩⟩

/-! ## The lookup without the immediate-predecessor step -/

/-- The variant of `ResolvePackage` described by step 4 of the lookup in the
specification taken alone: after the exact-match test it always runs the
general scan, without trying the immediately preceding record first. -/
def resolver.ResolvePackageScanOnly (r : resolver) (path : String) : Package × Option GoError :=
  let i := sortSearch r.pset.length (fun i => strGe (psetAt r.pset i).Path path)
  if i < r.pset.length ∧ (psetAt r.pset i).Path = path then
    (psetAt r.pset i, none)
  else
    match (scanLoop r.pset i path).1 with
    | some pkg => (pkg, none)
    | none => (Package.zero, some ErrPackageNotFound)

/-! ## The server (`server.go`) -/

/-- Go `time.Duration`: a number of nanoseconds. -/
abbrev Duration := Int

def Second : Duration := 1000000000
def Hour : Duration := 3600 * Second

structure ServerOptions where
  Host : String
  CacheAge : Duration
  deriving DecidableEq, Repr

def defaultServerOptions : ServerOptions := { Host := "", CacheAge := Hour * 24 }

structure Server where
  host : String
  cacheAge : Duration
  resolver : Resolver

/-- Go `NewServer`; `none` is the `nil` pointer. -/
def NewServer (resolver : Resolver) (opts : Option ServerOptions) : Server :=
  let opts := match opts with
    | none => defaultServerOptions
    | some o => o
  let opts := if opts.CacheAge ≤ 0 then { opts with CacheAge := defaultServerOptions.CacheAge }
    else opts
  { host := opts.Host, cacheAge := opts.CacheAge, resolver := resolver }

def Server.Host (srv : Server) : String := srv.host

def Server.CacheAge (srv : Server) : Duration := srv.cacheAge

def Server.Resolver (srv : Server) : Resolver := srv.resolver

/-- The fields of Go `http.Request` that the handler reads: `r.URL.Path` and `r.Host`. -/
structure Request where
  Path : String
  Host : String
  deriving DecidableEq, Repr

/-- The state of a Go `http.ResponseWriter`: the header map as a list of
key and value pairs in the order they were added, the status given to
`WriteHeader` if it was called, and the bytes written. -/
structure ResponseWriter where
  header : List (String × String)
  status : Option Nat
  body : String
  deriving DecidableEq, Repr

/-- The response writer a handler receives: nothing set, nothing written. -/
def ResponseWriter.fresh : ResponseWriter := { header := [], status := none, body := "" }

/-- Go `Header.Add(key, value)`. -/
def ResponseWriter.headerAdd (w : ResponseWriter) (key value : String) : ResponseWriter :=
  { w with header := w.header ++ [(key, value)] }

/-- Go `Header.Del(key)`. -/
def ResponseWriter.headerDel (w : ResponseWriter) (key : String) : ResponseWriter :=
  { w with header := w.header.filter (fun kv => kv.1 ≠ key) }

/-- Go `Header.Set(key, value)`. -/
def ResponseWriter.headerSet (w : ResponseWriter) (key value : String) : ResponseWriter :=
  (w.headerDel key).headerAdd key value

/-- Go `Header.Get(key)`: the first value of the key, or the empty string. -/
def ResponseWriter.headerGet (w : ResponseWriter) (key : String) : String :=
  match w.header.find? (fun kv => kv.1 = key) with
  | some kv => kv.2
  | none => ""

/-- Go `WriteHeader(code)`; only the first call takes effect. -/
def ResponseWriter.WriteHeader (w : ResponseWriter) (code : Nat) : ResponseWriter :=
  match w.status with
  | none => { w with status := some code }
  | some _ => w

/-- Go `Write(data)`: it calls `WriteHeader(200)` when no status was given yet. -/
def ResponseWriter.Write (w : ResponseWriter) (data : String) : ResponseWriter :=
  let w := w.WriteHeader 200
  { w with body := w.body ++ data }

/-- The status sent to the client: the one given to `WriteHeader`, or 200 when
the handler returns without giving one. -/
def ResponseWriter.statusCode (w : ResponseWriter) : Nat := w.status.getD 200

/-- Go `http.Error(w, error, code)`. -/
def httpError (w : ResponseWriter) (error : String) (code : Nat) : ResponseWriter :=
  let w := w.headerDel "Content-Length"
  let w := w.headerSet "Content-Type" "text/plain; charset=utf-8"
  let w := w.headerSet "X-Content-Type-Options" "nosniff"
  let w := w.WriteHeader code
  w.Write (error ++ "\n")

/-- Go `s[n:]` on a list of characters, `n` counting bytes: `none` when `n`
exceeds the length (a run-time panic).  An offset inside a character would
leave bytes that are not UTF-8; the model then continues after that character. -/
def byteDrop : Nat → List Char → Option (List Char)
  | 0, l => some l
  | _ + 1, [] => none
  | n + 1, c :: cs => byteDrop (n + 1 - c.utf8Size) cs

/-- Go `s[n:]`. -/
def sliceFrom (s : String) (n : Nat) : Option String :=
  match byteDrop n s.data with
  | none => none
  | some l => some ⟨l⟩

/-- The computation of `subpath` in `ServeHTTP`; `none` is a run-time panic. -/
def serveSubpath (pkg : Package) (path : String) : Option String :=
  if goLen pkg.Path < goLen path then sliceFrom path (goLen pkg.Path + 1) else some ""

/-- Go `Server.ServeHTTP`.  The rendering of the document by the template
engine is the parameter `render`: the bytes that `RenderDocument` writes for a
package, a host and a subpath.  The result is the state of the response writer
when the handler returns; `none` is a run-time panic. -/
def Server.ServeHTTP (render : Package → String → String → String) (srv : Server)
    (w : ResponseWriter) (r : Request) : Option ResponseWriter :=
  match srv.resolver.ResolvePackage r.Path with
  | (pkg, err) =>
    if errorsIsOpt err ErrPackageNotFound then
      some (httpError w "Package not found" 404)
    else if err ≠ none then
      some (httpError w "Internal Server Error" 500)
    else
      let w := w.headerAdd "Content-Type" "text/html; charset=utf-8"
      let w := w.headerAdd "Cache-Control"
        ("public, max-age=" ++ toString (Int.tdiv srv.cacheAge Second))
      match serveSubpath pkg r.Path with
      | none => none
      | some subpath => some (w.Write (render pkg (cmpOr "" [srv.host, r.Host]) subpath))

/-! ## An executable instance of the `net/url` operations

`goURL` follows `url.Parse`, `URL.Query` and `URL.Hostname` of the Go standard
library on URLs of the form `scheme://[userinfo@]host[:port]/path[?query][#fragment]`
without IPv6 brackets, whose percent escapes stand in the path and denote ASCII
bytes.  It is used only to evaluate the embedding on concrete inputs; every
general theorem holds for an arbitrary `NetURL`. -/

/-- The part of `l` before the first `c` and the part after it, if `c` occurs. -/
def cutAt (c : Char) : List Char → Option (List Char × List Char)
  | [] => none
  | x :: xs =>
    if x = c then some ([], xs)
    else match cutAt c xs with
      | none => none
      | some (a, b) => some (x :: a, b)

/-- Go `stringContainsCTLByte`. -/
def containsCTL (l : List Char) : Bool := l.any (fun c => c.toNat < 32 || c.toNat == 127)

def isAlpha (c : Char) : Bool :=
  (97 ≤ c.toNat && c.toNat ≤ 122) || (65 ≤ c.toNat && c.toNat ≤ 90)

def isSchemeRest (c : Char) : Bool :=
  (48 ≤ c.toNat && c.toNat ≤ 57) || c = '+' || c = '-' || c = '.'

/-- Go `getScheme`: the scheme and the rest; `none` for "missing protocol scheme". -/
def getSchemeAux : List Char → List Char → List Char → Option (List Char × List Char)
  | _, all, [] => some ([], all)
  | seen, all, c :: cs =>
    if isAlpha c then getSchemeAux (seen ++ [c]) all cs
    else if isSchemeRest c then
      (if seen.isEmpty then some ([], all) else getSchemeAux (seen ++ [c]) all cs)
    else if c = ':' then
      (if seen.isEmpty then none else some (seen, cs))
    else some ([], all)

def toLowerASCII (c : Char) : Char :=
  if 65 ≤ c.toNat ∧ c.toNat ≤ 90 then Char.ofNat (c.toNat + 32) else c

/-- The last `@` cut of an authority: the host part after the user information. -/
def hostOfAuthority (authority : List Char) : List Char :=
  match cutAt '@' authority.reverse with
  | none => authority
  | some (h, _) => h.reverse

/-- The value of a hexadecimal digit (Go `unhex`), `none` for another character. -/
def unhex (c : Char) : Option Nat :=
  if 48 ≤ c.toNat ∧ c.toNat ≤ 57 then some (c.toNat - 48)
  else if 97 ≤ c.toNat ∧ c.toNat ≤ 102 then some (c.toNat - 97 + 10)
  else if 65 ≤ c.toNat ∧ c.toNat ≤ 70 then some (c.toNat - 65 + 10)
  else none

/-- Go `unescape(s, encodePath)`: every `%XY` becomes the byte it denotes; `none`
for a malformed escape, and for an escape of a byte above 127, which a Lean
string cannot hold. -/
def unescapePath : List Char → Option (List Char)
  | [] => some []
  | '%' :: x :: y :: rest =>
    match unhex x, unhex y, unescapePath rest with
    | some a, some b, some r => if 16 * a + b < 128 then some (Char.ofNat (16 * a + b) :: r) else none
    | _, _, _ => none
  | '%' :: _ => none
  | c :: rest =>
    match unescapePath rest with
    | some r => some (c :: r)
    | none => none

/-- Go `url.Parse` on the URLs described above. -/
def goParse (rawURL : String) : Except GoError URL :=
  let u := match cutAt '#' rawURL.data with
    | none => rawURL.data
    | some (a, _) => a
  if containsCTL u then .error (.leaf "net/url: invalid control character in URL")
  else
    match getSchemeAux [] u u with
    | none => .error (.leaf "missing protocol scheme")
    | some (scheme, rest) =>
      let scheme := scheme.map toLowerASCII
      let (rest, rawQuery) := match cutAt '?' rest with
        | none => (rest, [])
        | some (a, b) => (a, b)
      if !("/".data.isPrefixOf rest) then
        if !scheme.isEmpty then .ok ⟨⟨scheme⟩, "", "", ⟨rawQuery⟩⟩
        else
          let segment := match cutAt '/' rest with
            | none => rest
            | some (a, _) => a
          if segment.contains ':' then
            .error (.leaf "first path segment in URL cannot contain colon")
          else
            match unescapePath rest with
            | none => .error (.leaf "invalid URL escape")
            | some path => .ok ⟨⟨scheme⟩, "", ⟨path⟩, ⟨rawQuery⟩⟩
      else if "//".data.isPrefixOf rest ∧ (!scheme.isEmpty ∨ !("///".data.isPrefixOf rest)) then
        let auth := rest.drop 2
        let (authority, path) := match cutAt '/' auth with
          | none => (auth, [])
          | some (a, b) => (a, '/' :: b)
        match unescapePath path with
        | none => .error (.leaf "invalid URL escape")
        | some path => .ok ⟨⟨scheme⟩, ⟨hostOfAuthority authority⟩, ⟨path⟩, ⟨rawQuery⟩⟩
      else
        match unescapePath rest with
        | none => .error (.leaf "invalid URL escape")
        | some path => .ok ⟨⟨scheme⟩, "", ⟨path⟩, ⟨rawQuery⟩⟩

/-- The pieces of `l` between occurrences of `c`. -/
def splitOn (c : Char) : List Char → List (List Char)
  | [] => [[]]
  | x :: xs =>
    match splitOn c xs with
    | [] => [[]]
    | p :: ps => if x = c then [] :: p :: ps else (x :: p) :: ps

/-- Go `len(u.Query())`: the number of distinct keys among the `&`-separated
pairs of the raw query; empty pairs and pairs with a semicolon are dropped. -/
def goQueryLen (u : URL) : Nat :=
  let pairs := (splitOn '&' u.RawQuery.data).filter (fun p => !p.isEmpty && !p.contains ';')
  let keys := pairs.map (fun p => match cutAt '=' p with
    | none => p
    | some (k, _) => k)
  keys.eraseDups.length

/-- Go `u.Hostname()`: the host without a valid `:port`. -/
def goHostname (u : URL) : String :=
  match cutAt ':' u.Host.data.reverse with
  | none => u.Host
  | some (port, h) => if port.all Char.isDigit then ⟨h.reverse⟩ else u.Host

def goURL : NetURL := ⟨goParse, goQueryLen, goHostname⟩

/-! ## Records used in examples (from `resolver_test.go` and `package_test.go`) -/

def pkgFoo : Package :=
  { Path := "/foo", VCS := Git, Display := "foo_display",
    RepositoryURL := "https://git.example.com/foo" }

def pkgBar : Package :=
  { Path := "/bar", VCS := Git, Display := "bar_display",
    RepositoryURL := "https://git.example.com/bar" }

def pkgFooBar : Package :=
  { Path := "/foo/bar", VCS := Git, Display := "foo_display",
    RepositoryURL := "https://git.example.com/foo" }

/-- The record `/foo` of the tests with its path written without the leading slash. -/
def pkgFooRelative : Package := { pkgFoo with Path := "foo" }

/-- The record `/foo` of the tests with its path written `/foo/`. -/
def pkgFooSlash : Package := { pkgFoo with Path := "/foo/" }

/-- The record `/foo` of the tests with its path written `/foo//`. -/
def pkgFooTwoSlashes : Package := { pkgFoo with Path := "/foo//" }

/-- A record whose repository URL has an escaped question mark in its path. -/
def pkgEscapedQuery : Package :=
  { pkgFoo with RepositoryURL := "https://git.example.com/a%3Fb" }

/-- The record of the test `detect_vcs`: no `VCS`, a repository on github.com. -/
def pkgDetectVCS : Package :=
  { Path := "/foo", VCS := 0, Display := "foo_display",
    RepositoryURL := "https://github.com/foo" }

/-- The record of the test `detect_display`: no `Display`, a repository on github.com. -/
def pkgDetectDisplay : Package :=
  { Path := "/foo", VCS := Git, Display := "", RepositoryURL := "https://github.com/foo" }

/-- A record on github.com whose `VCS` is set to `Svn`. -/
def pkgSvnGithub : Package :=
  { Path := "/foo", VCS := Svn, Display := "foo_display",
    RepositoryURL := "https://github.com/foo" }

/-- The record `/foo` of the tests without a `Display`; its host is not a known one. -/
def pkgFooNoDisplay : Package := { pkgFoo with Display := "" }

/-- The record `/foo` of the tests with surrounding white space, user
information, an empty query and a fragment in its repository URL. -/
def pkgFooDecorated : Package :=
  { pkgFoo with RepositoryURL := " https://user:pw@git.example.com/foo?#frag " }

/-- The record of the test `invalid_package` of `resolver_test.go`. -/
def pkgInvalidScheme : Package :=
  { Path := "/foo", VCS := 0, Display := "", RepositoryURL := "none://git.example.com/foo" }

/-- The type `failingResolver` of `resolver_test.go`: it returns the zero
package and its error for every path. -/
def failingResolver (err : Option GoError) : Resolver := ⟨fun _ => (Package.zero, err)⟩

/-- The error `os.ErrInvalid` of the Go standard library. -/
def osErrInvalid : GoError := .leaf "invalid argument"

/-- The static resolver of the tests of `NewMultiResolver`, holding the record `/foo`. -/
def resolverFoo : Resolver := resolver.toResolver ⟨[pkgFoo]⟩

/-- The record of the test `invalid_package` under the path `/baz`. -/
def pkgInvalidSchemeBaz : Package := { pkgInvalidScheme with Path := "/baz" }

/-- A record with the path `/foo` and another `Display` than `pkgFoo`. -/
def pkgFooOther : Package := { pkgFoo with Display := "other_display" }

/-- The error `os.ErrClosed` of the Go standard library. -/
def osErrClosed : GoError := .leaf "file already closed"

/-- A rendering that writes the host, the package path and the subpath. -/
def renderPlain (pkg : Package) (host subpath : String) : String :=
  host ++ pkg.Path ++ " " ++ subpath

/-- The record `pkgFooOther` with its path written without the leading slash. -/
def pkgFooOtherRelative : Package := { pkgFooOther with Path := "foo" }

/-- A resolver that returns the same package, without error, for every path. -/
def constResolver (pkg : Package) : Resolver := ⟨fun _ => (pkg, none)⟩

/-! ## Predicates used to state the properties -/

/-- The sequence is in ascending order of `Path`. -/
def SortedByPath (l : List Package) : Prop :=
  l.Pairwise (fun a b => strLt b.Path a.Path = false)

/-- The invariant of the scan of `ResolvePackage` after the records `seen`:
`matchSubpathLen` never exceeds `len(path)`; while `match` is `nil` no record
seen so far has `Path + "/"` as a prefix of `path`; otherwise `match` is a record
seen so far with that prefix, `matchSubpathLen` is the length of what follows
the prefix, and no record seen so far with such a prefix has a longer `Path`. -/
def ScanInv (path : String) (seen : List Package) (st : Option Package × Nat) : Prop :=
  st.2 ≤ goLen path ∧
  match st.1 with
  | none => st.2 = goLen path ∧ ∀ r ∈ seen, HasPrefix path (r.Path ++ "/") = false
  | some k =>
    k ∈ seen ∧ HasPrefix path (k.Path ++ "/") = true ∧
    st.2 + (goLen k.Path + 1) = goLen path ∧
    ∀ r ∈ seen, HasPrefix path (r.Path ++ "/") = true → goLen r.Path ≤ goLen k.Path

/-! ## Facts about the string operations -/

theorem toNat_inj_char {a b : Char} (h : a.toNat = b.toNat) : a = b := by
  rw [← Char.ofNat_toNat a, ← Char.ofNat_toNat b, h]

theorem lexLt_irrefl (a : List Char) : lexLt a a = false := by
  induction a with
  | nil => rfl
  | cons c cs ih => simp [lexLt, ih]

theorem lexLt_trichotomy (a b : List Char) : lexLt a b = true ∨ a = b ∨ lexLt b a = true := by
  induction a generalizing b with
  | nil => cases b <;> simp [lexLt]
  | cons c cs ih =>
    cases b with
    | nil => simp [lexLt]
    | cons d ds =>
      rcases Nat.lt_trichotomy c.toNat d.toNat with h | h | h
      · left; simp [lexLt, h]
      · have hcd : c = d := toNat_inj_char h
        subst hcd
        rcases ih ds with h1 | h1 | h1
        · left; simp [lexLt, h1]
        · right; left; rw [h1]
        · right; right; simp [lexLt, h1]
      · right; right; simp [lexLt, h]

theorem lexLt_trans {a b c : List Char} (h1 : lexLt a b = true) (h2 : lexLt b c = true) :
    lexLt a c = true := by
  induction a generalizing b c with
  | nil =>
    cases c with
    | nil => cases b <;> simp [lexLt] at h2
    | cons => rfl
  | cons x xs ih =>
    cases b with
    | nil => simp [lexLt] at h1
    | cons y ys =>
      cases c with
      | nil => simp [lexLt] at h2
      | cons z zs =>
        simp only [lexLt] at h1 h2 ⊢
        split_ifs at h1 h2 ⊢ <;> first
          | rfl
          | omega
          | exact ih h1 h2

theorem lexLt_asymm {a b : List Char} (h : lexLt a b = true) : lexLt b a = false := by
  cases hb : lexLt b a with
  | false => rfl
  | true =>
    have := lexLt_trans h hb
    rw [lexLt_irrefl] at this
    cases this

/-- A string is smaller than each of its proper extensions. -/
theorem lexLt_append_cons (a : List Char) (c : Char) (t : List Char) :
    lexLt a (a ++ c :: t) = true := by
  induction a with
  | nil => rfl
  | cons x xs ih => simp [lexLt, ih]

theorem lexLt_of_lt_of_not_lt {a b c : List Char} (h1 : lexLt a b = true)
    (h2 : lexLt c b = false) : lexLt a c = true := by
  rcases lexLt_trichotomy b c with h | h | h
  · exact lexLt_trans h1 h
  · rw [← h]; exact h1
  · rw [h] at h2; cases h2

theorem lexLt_of_not_lt_of_lt {a b c : List Char} (h1 : lexLt b a = false)
    (h2 : lexLt b c = true) : lexLt a c = true := by
  rcases lexLt_trichotomy a b with h | h | h
  · exact lexLt_trans h h2
  · rw [h]; exact h2
  · rw [h] at h1; cases h1

theorem lexLt_not_lt_trans {a b c : List Char} (h1 : lexLt b a = false)
    (h2 : lexLt c b = false) : lexLt c a = false := by
  cases h : lexLt c a with
  | false => rfl
  | true =>
    have := lexLt_of_lt_of_not_lt h h1
    rw [this] at h2; cases h2

theorem eq_of_not_lexLt {a b : List Char} (h1 : lexLt a b = false) (h2 : lexLt b a = false) :
    a = b := by
  rcases lexLt_trichotomy a b with h | h | h
  · rw [h] at h1; cases h1
  · exact h
  · rw [h] at h2; cases h2

theorem byteLen_append (a b : List Char) : byteLen (a ++ b) = byteLen a + byteLen b := by
  induction a with
  | nil => simp [byteLen]
  | cons c cs ih => simp [byteLen, ih, Nat.add_assoc]

theorem byteLen_cons_pos (c : Char) (t : List Char) : 0 < byteLen (c :: t) := by
  have := Char.utf8Size_pos c
  simp only [byteLen]; omega

theorem goLen_append (a b : String) : goLen (a ++ b) = goLen a + goLen b := by
  simp [goLen, byteLen_append]

theorem goLen_slash : goLen "/" = 1 := by decide

theorem hasPrefix_iff (s pre : String) :
    HasPrefix s pre = true ↔ ∃ t, s.data = pre.data ++ t := by
  unfold HasPrefix
  rw [List.isPrefixOf_iff_prefix]
  constructor
  · rintro ⟨t, ht⟩; exact ⟨t, ht.symm⟩
  · rintro ⟨t, ht⟩; exact ⟨t, ht.symm⟩

/-! ## Sorting and binary search -/

theorem stringsCompare_le_zero (a b : String) :
    stringsCompare a b ≤ 0 ↔ strLt b a = false := by
  unfold stringsCompare
  by_cases h1 : strLt a b = true
  · have : strLt b a = false := lexLt_asymm h1
    simp [h1, this]
  · by_cases h2 : strLt b a = true
    · simp [h1, h2]
    · simp [h1, h2]

theorem sortInsert_perm {α : Type} (cmp : α → α → Int) (x : α) (l : List α) :
    (sortInsert cmp x l).Perm (x :: l) := by
  induction l with
  | nil => exact List.Perm.refl _
  | cons y ys ih =>
    unfold sortInsert
    split_ifs
    · exact List.Perm.refl _
    · exact (List.Perm.cons y ih).trans (List.Perm.swap x y ys)

theorem slicesSortFunc_perm {α : Type} (cmp : α → α → Int) (l : List α) :
    (slicesSortFunc cmp l).Perm l := by
  induction l with
  | nil => exact List.Perm.refl _
  | cons x xs ih =>
    exact (sortInsert_perm cmp x _).trans (List.Perm.cons x ih)

theorem sortInsert_sorted (x : Package) (l : List Package) (h : SortedByPath l) :
    SortedByPath (sortInsert (fun a b => stringsCompare a.Path b.Path) x l) := by
  induction l with
  | nil => simp [sortInsert, SortedByPath]
  | cons y ys ih =>
    unfold sortInsert
    have hy := List.pairwise_cons.mp h
    split_ifs with hc
    · rw [stringsCompare_le_zero] at hc
      refine List.pairwise_cons.mpr ⟨?_, h⟩
      intro z hz
      rcases List.mem_cons.mp hz with hz | hz
      · rw [hz]; exact hc
      · exact lexLt_not_lt_trans hc (hy.1 z hz)
    · rw [stringsCompare_le_zero] at hc
      have hxy : strLt x.Path y.Path = false := by
        cases hlt : strLt x.Path y.Path with
        | false => rfl
        | true =>
          have := lexLt_asymm hlt
          exact absurd this hc
      refine List.pairwise_cons.mpr ⟨?_, ih hy.2⟩
      intro z hz
      have hz2 := (sortInsert_perm _ x ys).subset hz
      rcases List.mem_cons.mp hz2 with hz3 | hz3
      · rw [hz3]; exact hxy
      · exact hy.1 z hz3

theorem slicesSortFunc_sorted (l : List Package) :
    SortedByPath (slicesSortFunc (fun a b => stringsCompare a.Path b.Path) l) := by
  induction l with
  | nil => simp [slicesSortFunc, SortedByPath]
  | cons x xs ih => exact sortInsert_sorted x _ ih

/-- The loop of `sort.Search` keeps the answer inside `[i, j]`: with enough
fuel it stops at an index below which `f` fails and from which `f` holds. -/
theorem searchLoop_spec (f : Nat → Bool) (n : Nat) (fuel i j : Nat)
    (hmono : ∀ a b, a ≤ b → b < n → f a = true → f b = true)
    (hfuel : j - i ≤ fuel) (hij : i ≤ j) (hjn : j ≤ n)
    (hlo : ∀ k, k < i → f k = false) (hhi : ∀ k, j ≤ k → k < n → f k = true) :
    let r := searchLoop f fuel i j
    r ≤ n ∧ (∀ k, k < r → f k = false) ∧ (∀ k, r ≤ k → k < n → f k = true) := by
  induction fuel generalizing i j with
  | zero =>
    have : i = j := by omega
    subst this
    exact ⟨hjn, hlo, hhi⟩
  | succ fuel ih =>
    simp only [searchLoop]
    by_cases hlt : i < j
    · simp only [hlt, if_true]
      cases hf : f ((i + j) / 2) with
      | false =>
        simp only [Bool.not_false, if_true]
        apply ih
        · omega
        · omega
        · exact hjn
        · intro k hk
          cases hfk : f k with
          | false => rfl
          | true =>
            have := hmono k ((i + j) / 2) (by omega) (by omega) hfk
            rw [hf] at this; cases this
        · exact hhi
      | true =>
        simp only [Bool.not_true, Bool.false_eq_true, if_false]
        apply ih
        · omega
        · omega
        · omega
        · exact hlo
        · intro k hk hkn
          exact hmono ((i + j) / 2) k hk hkn hf
    · simp only [hlt, if_false]
      have : i = j := by omega
      subst this
      exact ⟨hjn, hlo, hhi⟩

theorem psetAt_eq (pset : List Package) (k : Nat) (h : k < pset.length) :
    psetAt pset k = pset[k] := by
  simp [psetAt, List.getD, List.getElem?_eq_getElem h]

theorem psetAt_mem (pset : List Package) (k : Nat) (h : k < pset.length) :
    psetAt pset k ∈ pset := by
  rw [psetAt_eq pset k h]
  exact List.getElem_mem h

theorem exists_psetAt_of_mem (pset : List Package) (rec : Package) (h : rec ∈ pset) :
    ∃ k, k < pset.length ∧ psetAt pset k = rec := by
  obtain ⟨k, hk, he⟩ := List.getElem_of_mem h
  exact ⟨k, hk, by rw [psetAt_eq pset k hk, he]⟩

theorem sorted_psetAt_le (pset : List Package) (h : SortedByPath pset) (a b : Nat)
    (hab : a ≤ b) (hb : b < pset.length) :
    strLt (psetAt pset b).Path (psetAt pset a).Path = false := by
  rcases Nat.lt_or_eq_of_le hab with hlt | heq
  · rw [psetAt_eq pset a (by omega), psetAt_eq pset b hb]
    exact (List.pairwise_iff_getElem.mp h) a b (by omega) hb hlt
  · subst heq
    exact lexLt_irrefl _

/-- On a sequence sorted by `Path`, `sort.Search` returns the index that
separates the records below `path` from the records at or above it. -/
theorem sortSearch_sorted (pset : List Package) (h : SortedByPath pset) (path : String) :
    let i := sortSearch pset.length (fun i => strGe (psetAt pset i).Path path)
    i ≤ pset.length ∧
    (∀ k, k < i → strLt (psetAt pset k).Path path = true) ∧
    (∀ k, i ≤ k → k < pset.length → strLt (psetAt pset k).Path path = false) := by
  have hs := searchLoop_spec (fun i => strGe (psetAt pset i).Path path) pset.length
    pset.length 0 pset.length
    (by
      intro a b hab hb ha
      simp only [strGe, Bool.not_eq_true'] at ha ⊢
      exact lexLt_not_lt_trans ha (sorted_psetAt_le pset h a b hab hb))
    (by omega) (by omega) (by omega)
    (by intro k hk; omega) (by intro k hk hk2; omega)
  simp only [strGe, Bool.not_eq_false', Bool.not_eq_true'] at hs
  exact hs

theorem strLt_of_hasPrefix_slash (p a : String) (h : HasPrefix p (a ++ "/") = true) :
    strLt a p = true := by
  obtain ⟨t, ht⟩ := (hasPrefix_iff _ _).mp h
  simp only [String.data_append, List.append_assoc] at ht
  unfold strLt
  rw [ht]
  exact lexLt_append_cons _ _ _

theorem goLen_lt_of_hasPrefix_slash (p a : String) (h : HasPrefix p (a ++ "/") = true) :
    goLen a < goLen p := by
  obtain ⟨t, ht⟩ := (hasPrefix_iff _ _).mp h
  simp only [String.data_append] at ht
  unfold goLen
  rw [ht, List.append_assoc, byteLen_append, byteLen_append]
  have : byteLen ['/'] = 1 := by decide
  omega

/-- Of two records whose `Path + "/"` is a prefix of the same path, the one with
the shorter `Path` is an ancestor of the other, and so sorts before it. -/
theorem strLt_of_both_prefix (p k r : String) (hk : HasPrefix p (k ++ "/") = true)
    (hr : HasPrefix p (r ++ "/") = true) (hlen : goLen k < goLen r) :
    strLt k r = true := by
  obtain ⟨t1, ht1⟩ := (hasPrefix_iff _ _).mp hk
  obtain ⟨t2, ht2⟩ := (hasPrefix_iff _ _).mp hr
  simp only [String.data_append, List.append_assoc] at ht1 ht2
  rw [ht1] at ht2
  unfold goLen at hlen
  unfold strLt
  rcases List.append_eq_append_iff.mp ht2 with ⟨a, ha1, ha2⟩ | ⟨c, hc1, hc2⟩
  · cases a with
    | nil =>
      simp only [List.append_nil] at ha1
      rw [ha1] at hlen; omega
    | cons x xs =>
      rw [ha1]
      exact lexLt_append_cons _ _ _
  · rw [hc1, byteLen_append] at hlen
    omega

/-! ## The scan of `ResolvePackage` -/

theorem trimPrefix_goLen (p a : String) (h : HasPrefix p (a ++ "/") = true) :
    goLen (TrimPrefix p (a ++ "/")) + (goLen a + 1) = goLen p := by
  obtain ⟨t, ht⟩ := (hasPrefix_iff _ _).mp h
  simp only [TrimPrefix, h, if_true]
  simp only [String.data_append] at ht
  unfold goLen
  simp only [String.data_append]
  rw [ht, List.drop_left, byteLen_append, byteLen_append]
  have : byteLen ['/'] = 1 := by decide
  omega

/-- One iteration of the scan takes a record exactly when its `Path + "/"` is
a prefix of the path and what follows the prefix is shorter than the best so far. -/
theorem scanStep_eq (path : String) (st : Option Package × Nat) (pkg : Package)
    (hst : st.2 ≤ goLen path) :
    scanStep path st pkg =
      if HasPrefix path (pkg.Path ++ "/") = true ∧ goLen path - (goLen pkg.Path + 1) < st.2
      then (some pkg, goLen path - (goLen pkg.Path + 1)) else st := by
  unfold scanStep
  by_cases hp : HasPrefix path (pkg.Path ++ "/") = true
  · have h1 := goLen_lt_of_hasPrefix_slash path pkg.Path hp
    have h2 := trimPrefix_goLen path pkg.Path hp
    have h3 : goLen (TrimPrefix path (pkg.Path ++ "/")) = goLen path - (goLen pkg.Path + 1) := by
      omega
    have h4 : ¬ goLen pkg.Path ≥ goLen path := by omega
    simp only [h4, if_false, hp, true_and, h3]
  · have h5 : TrimPrefix path (pkg.Path ++ "/") = path := by simp [TrimPrefix, hp]
    have hR : ¬ (HasPrefix path (pkg.Path ++ "/") = true ∧
        goLen path - (goLen pkg.Path + 1) < st.2) := fun hc => hp hc.1
    rw [if_neg hR]
    simp only [h5]
    split_ifs with h6 h7
    · rfl
    · omega
    · rfl

theorem scanInv_step (path : String) (seen : List Package) (st : Option Package × Nat)
    (pkg : Package) (h : ScanInv path seen st) :
    ScanInv path (seen ++ [pkg]) (scanStep path st pkg) := by
  obtain ⟨hle, hm⟩ := h
  rw [scanStep_eq path st pkg hle]
  by_cases hp : HasPrefix path (pkg.Path ++ "/") = true
  · have h1 := goLen_lt_of_hasPrefix_slash path pkg.Path hp
    by_cases hlt : goLen path - (goLen pkg.Path + 1) < st.2
    · rw [if_pos ⟨hp, hlt⟩]
      refine ⟨by simp only; omega, ?_⟩
      simp only
      refine ⟨by simp, hp, by omega, ?_⟩
      intro r hr hrp
      rcases List.mem_append.mp hr with hr1 | hr1
      · rcases hst1 : st.1 with _ | k
        · rw [hst1] at hm
          have := hm.2 r hr1
          rw [hrp] at this; cases this
        · rw [hst1] at hm
          have := hm.2.2.2 r hr1 hrp
          have h2 := hm.2.2.1
          omega
      · simp only [List.mem_singleton] at hr1
        rw [hr1]
    · rw [if_neg (fun hc => hlt hc.2)]
      refine ⟨hle, ?_⟩
      rcases hst1 : st.1 with _ | k
      · rw [hst1] at hm
        simp only at hm
        omega
      · rw [hst1] at hm
        simp only at hm ⊢
        refine ⟨by simp [hm.1], hm.2.1, hm.2.2.1, ?_⟩
        intro r hr hrp
        rcases List.mem_append.mp hr with hr1 | hr1
        · exact hm.2.2.2 r hr1 hrp
        · simp only [List.mem_singleton] at hr1
          rw [hr1]
          have h2 := hm.2.2.1
          omega
  · rw [if_neg (fun hc => hp hc.1)]
    refine ⟨hle, ?_⟩
    have hpf : HasPrefix path (pkg.Path ++ "/") = false := by
      cases hh : HasPrefix path (pkg.Path ++ "/") with
      | false => rfl
      | true => exact absurd hh hp
    rcases hst1 : st.1 with _ | k
    · rw [hst1] at hm
      simp only at hm ⊢
      refine ⟨hm.1, ?_⟩
      intro r hr
      rcases List.mem_append.mp hr with hr1 | hr1
      · exact hm.2 r hr1
      · simp only [List.mem_singleton] at hr1
        rw [hr1]; exact hpf
    · rw [hst1] at hm
      simp only at hm ⊢
      refine ⟨by simp [hm.1], hm.2.1, hm.2.2.1, ?_⟩
      intro r hr hrp
      rcases List.mem_append.mp hr with hr1 | hr1
      · exact hm.2.2.2 r hr1 hrp
      · simp only [List.mem_singleton] at hr1
        rw [hr1] at hrp
        exact absurd hrp hp

theorem scanInv_foldl (path : String) (l seen : List Package) (st : Option Package × Nat)
    (h : ScanInv path seen st) :
    ScanInv path (seen ++ l) (l.foldl (scanStep path) st) := by
  induction l generalizing seen st with
  | nil => simpa using h
  | cons x xs ih =>
    have := ih (seen ++ [x]) (scanStep path st x) (scanInv_step path seen st x h)
    simpa using this

theorem scanInv_scanLoop (pset : List Package) (i : Nat) (path : String) :
    ScanInv path (pset.take i) (scanLoop pset i path) := by
  have h0 : ScanInv path [] (none, goLen path) := by
    simp [ScanInv]
  have := scanInv_foldl path (pset.take i) [] (none, goLen path) h0
  simpa [scanLoop] using this

/-! ## `ResolvePackage` on a sequence sorted by `Path` -/

theorem mem_take_of_strLt (pset : List Package) (h : SortedByPath pset) (path : String)
    (rec : Package) (hrec : rec ∈ pset) (hlt : strLt rec.Path path = true) :
    rec ∈ pset.take (sortSearch pset.length (fun i => strGe (psetAt pset i).Path path)) := by
  obtain ⟨_, _, hge⟩ := sortSearch_sorted pset h path
  obtain ⟨k, hk, hkr⟩ := exists_psetAt_of_mem pset rec hrec
  by_cases hki : k < sortSearch pset.length (fun i => strGe (psetAt pset i).Path path)
  · rw [psetAt_eq pset k hk] at hkr
    exact List.mem_take_iff_getElem.mpr ⟨k, by omega, hkr⟩
  · have := hge k (by omega) hk
    rw [hkr, hlt] at this
    cases this

theorem exact_at_search (pset : List Package) (h : SortedByPath pset) (path : String)
    (rec : Package) (hrec : rec ∈ pset) (hp : rec.Path = path) :
    sortSearch pset.length (fun i => strGe (psetAt pset i).Path path) < pset.length ∧
    (psetAt pset (sortSearch pset.length (fun i => strGe (psetAt pset i).Path path))).Path
      = path := by
  obtain ⟨_, hlo, hge⟩ := sortSearch_sorted pset h path
  obtain ⟨k, hk, hkr⟩ := exists_psetAt_of_mem pset rec hrec
  have hik : sortSearch pset.length (fun i => strGe (psetAt pset i).Path path) ≤ k := by
    by_contra hc
    have := hlo k (by omega)
    rw [hkr, hp] at this
    have h2 := lexLt_irrefl path.data
    unfold strLt at this
    rw [h2] at this; cases this
  refine ⟨by omega, ?_⟩
  have h1 := hge _ (Nat.le_refl _) (by omega)
  have h2 := sorted_psetAt_le pset h _ k hik hk
  rw [hkr, hp] at h2
  exact String.ext (eq_of_not_lexLt h1 h2)

/-- Soundness of the lookup: a returned package is a record of the set, and its
`Path` is the request path or an ancestor of it at a `/` boundary. -/
theorem resolve_sound (pset : List Package) (h : SortedByPath pset) (path : String)
    (k : Package) (hres : resolver.ResolvePackage ⟨pset⟩ path = (k, none)) :
    k ∈ pset ∧ (k.Path = path ∨ HasPrefix path (k.Path ++ "/") = true) := by
  obtain ⟨hin, _, _⟩ := sortSearch_sorted pset h path
  unfold resolver.ResolvePackage at hres
  simp only at hres
  split_ifs at hres with h1 h2
  · simp only [Prod.mk.injEq, and_true] at hres
    rw [← hres]
    exact ⟨psetAt_mem pset _ h1.1, Or.inl h1.2⟩
  · simp only [Prod.mk.injEq, and_true] at hres
    rw [← hres]
    exact ⟨psetAt_mem pset _ (by omega), Or.inr h2.2⟩
  · have hinv := scanInv_scanLoop pset
      (sortSearch pset.length (fun i => strGe (psetAt pset i).Path path)) path
    split at hres
    · rename_i pkg hm
      simp only [Prod.mk.injEq, and_true] at hres
      subst hres
      obtain ⟨_, hmm⟩ := hinv
      rw [hm] at hmm
      exact ⟨List.mem_of_mem_take hmm.1, Or.inr hmm.2.1⟩
    · simp at hres

/-- Completeness of the lookup: it reports "not found" exactly when no record
owns the request path. -/
theorem resolve_notFound_iff (pset : List Package) (h : SortedByPath pset) (path : String) :
    resolver.ResolvePackage ⟨pset⟩ path = (Package.zero, some ErrPackageNotFound) ↔
      ∀ rec ∈ pset, ¬ (rec.Path = path ∨ HasPrefix path (rec.Path ++ "/") = true) := by
  constructor
  · intro hres rec hrec hown
    unfold resolver.ResolvePackage at hres
    simp only at hres
    split_ifs at hres with h1 h2
    · simp at hres
    · simp at hres
    · rcases hown with hex | hpre
      · exact h1 (exact_at_search pset h path rec hrec hex)
      · have hmem := mem_take_of_strLt pset h path rec hrec
          (strLt_of_hasPrefix_slash path rec.Path hpre)
        have hinv := scanInv_scanLoop pset
          (sortSearch pset.length (fun i => strGe (psetAt pset i).Path path)) path
        split at hres
        · simp at hres
        · rename_i hm
          obtain ⟨_, hmm⟩ := hinv
          rw [hm] at hmm
          have := hmm.2 rec hmem
          rw [hpre] at this; cases this
  · intro hno
    obtain ⟨hin, _, _⟩ := sortSearch_sorted pset h path
    unfold resolver.ResolvePackage
    simp only
    split_ifs with h1 h2
    · exact absurd (Or.inl h1.2) (hno _ (psetAt_mem pset _ h1.1))
    · exact absurd (Or.inr h2.2) (hno _ (psetAt_mem pset _ (by omega)))
    · have hinv := scanInv_scanLoop pset
        (sortSearch pset.length (fun i => strGe (psetAt pset i).Path path)) path
      split
      · rename_i pkg hm
        obtain ⟨_, hmm⟩ := hinv
        rw [hm] at hmm
        exact absurd (Or.inr hmm.2.1) (hno _ (List.mem_of_mem_take hmm.1))
      · rfl

/-- The lookup returns the most specific owner: no record with a longer `Path`
owns the request path. -/
theorem resolve_most_specific (pset : List Package) (h : SortedByPath pset) (path : String)
    (k : Package) (hres : resolver.ResolvePackage ⟨pset⟩ path = (k, none))
    (rec : Package) (hrec : rec ∈ pset) (hlen : goLen rec.Path > goLen k.Path) :
    ¬ (rec.Path = path ∨ HasPrefix path (rec.Path ++ "/") = true) := by
  intro hown
  obtain ⟨hin, hlo, hge⟩ := sortSearch_sorted pset h path
  unfold resolver.ResolvePackage at hres
  simp only at hres
  split_ifs at hres with h1 h2
  · simp only [Prod.mk.injEq, and_true] at hres
    rw [← hres, h1.2] at hlen
    rcases hown with hex | hpre
    · rw [hex] at hlen; omega
    · have := goLen_lt_of_hasPrefix_slash path rec.Path hpre
      omega
  · simp only [Prod.mk.injEq, and_true] at hres
    rw [← hres] at hlen
    rcases hown with hex | hpre
    · exact h1 (exact_at_search pset h path rec hrec hex)
    · have hkr := strLt_of_both_prefix path _ rec.Path h2.2 hpre hlen
      have hrp := strLt_of_hasPrefix_slash path rec.Path hpre
      obtain ⟨m, hm, hmr⟩ := exists_psetAt_of_mem pset rec hrec
      by_cases hmi : m < sortSearch pset.length (fun i => strGe (psetAt pset i).Path path)
      · have := sorted_psetAt_le pset h m
          (sortSearch pset.length (fun i => strGe (psetAt pset i).Path path) - 1)
          (by omega) (by omega)
        rw [hmr, hkr] at this
        cases this
      · have := hge m (by omega) hm
        rw [hmr, hrp] at this
        cases this
  · rcases hown with hex | hpre
    · exact h1 (exact_at_search pset h path rec hrec hex)
    · have hmem := mem_take_of_strLt pset h path rec hrec
        (strLt_of_hasPrefix_slash path rec.Path hpre)
      have hinv := scanInv_scanLoop pset
        (sortSearch pset.length (fun i => strGe (psetAt pset i).Path path)) path
      split at hres
      · rename_i pkg hm
        simp only [Prod.mk.injEq, and_true] at hres
        subst hres
        obtain ⟨_, hmm⟩ := hinv
        rw [hm] at hmm
        have := hmm.2.2.2 rec hmem hpre
        omega
      · simp at hres

/-! ## `AdjustFields` -/

/-- The outcome of `AdjustFields` when the repository URL parses to `u`. -/
theorem adjustFields_of_parse (lib : NetURL) (pkg : Package) (u : URL)
    (hu : lib.Parse (TrimSpace pkg.RepositoryURL) = .ok u) :
    AdjustFields lib pkg =
      if lib.QueryLen u > 0 then
        (Package.zero, some (.wrap
          (ErrInvalidPackage.Error ++ ": repository url contains query parameters: "
            ++ u.RawQuery) ErrInvalidPackage))
      else if !(["https", "http"].contains u.Scheme) then
        (Package.zero, some (.wrap
          (ErrInvalidPackage.Error ++ ": invalid repository url schema: " ++ u.Scheme)
          ErrInvalidPackage))
      else if !(VCS.Valid (cmpOr 0 [pkg.VCS, DetectVCS lib (u.Scheme ++ "://" ++ u.Host ++ u.Path)]))
      then
        (Package.zero, some (.wrap
          (ErrInvalidPackage.Error ++ ": could not detect VCS") ErrInvalidPackage))
      else
        ({ Path := adjustPath pkg.Path,
           VCS := cmpOr 0 [pkg.VCS, DetectVCS lib (u.Scheme ++ "://" ++ u.Host ++ u.Path)],
           Display := cmpOr "" [pkg.Display,
             DetectDisplay lib (u.Scheme ++ "://" ++ u.Host ++ u.Path)],
           RepositoryURL := u.Scheme ++ "://" ++ u.Host ++ u.Path }, none) := by
  unfold AdjustFields
  simp only [hu]

/-- The outcome of `AdjustFields` when the repository URL does not parse. -/
theorem adjustFields_of_parse_error (lib : NetURL) (pkg : Package) (err : GoError)
    (hu : lib.Parse (TrimSpace pkg.RepositoryURL) = .error err) :
    AdjustFields lib pkg =
      (Package.zero, some (.wrap2
        (ErrInvalidPackage.Error ++ ": invalid repository url: " ++ err.Error)
        ErrInvalidPackage err)) := by
  unfold AdjustFields
  simp only [hu]

theorem errorsIs_wrap_self (m : String) (t : GoError) : errorsIs (.wrap m t) t = true := by
  cases t <;> simp [errorsIs]

theorem errorsIs_wrap2_self (m : String) (t e : GoError) :
    errorsIs (.wrap2 m t e) t = true := by
  cases t <;> simp [errorsIs]

/-- Every error of `AdjustFields` wraps `ErrInvalidPackage`. -/
theorem adjustFields_error_is (lib : NetURL) (pkg : Package) (err : GoError)
    (h : (AdjustFields lib pkg).2 = some err) : errorsIs err ErrInvalidPackage = true := by
  cases hu : lib.Parse (TrimSpace pkg.RepositoryURL) with
  | error e =>
    rw [adjustFields_of_parse_error lib pkg e hu] at h
    simp only [Option.some.injEq] at h
    rw [← h]; exact errorsIs_wrap2_self _ _ _
  | ok u =>
    rw [adjustFields_of_parse lib pkg u hu] at h
    split_ifs at h
    · simp only [Option.some.injEq] at h
      rw [← h]; exact errorsIs_wrap_self _ _
    · simp only [Option.some.injEq] at h
      rw [← h]; exact errorsIs_wrap_self _ _
    · simp only [Option.some.injEq] at h
      rw [← h]; exact errorsIs_wrap_self _ _

/-- A successful `AdjustFields` returns the cleaned-up path. -/
theorem adjustFields_path (lib : NetURL) (pkg q : Package)
    (h : AdjustFields lib pkg = (q, none)) : q.Path = adjustPath pkg.Path := by
  cases hu : lib.Parse (TrimSpace pkg.RepositoryURL) with
  | error e =>
    rw [adjustFields_of_parse_error lib pkg e hu] at h
    simp at h
  | ok u =>
    rw [adjustFields_of_parse lib pkg u hu] at h
    split_ifs at h
    · simp at h
    · simp at h
    · simp at h
    · simp only [Prod.mk.injEq, and_true] at h
      rw [← h]

/-! ## `NewResolver` -/

/-- Every error of the loop of `NewResolver` wraps `ErrInvalidPackage`. -/
theorem newResolverLoop_error_is (lib : NetURL) (l : List Package) (pm : List String)
    (err : GoError) (h : newResolverLoop lib l pm = .error err) :
    errorsIs err ErrInvalidPackage = true := by
  induction l generalizing pm with
  | nil => simp [newResolverLoop] at h
  | cons pkg rest ih =>
    unfold newResolverLoop at h
    split_ifs at h with hc
    · simp only [Except.error.injEq] at h
      rw [← h]; exact errorsIs_wrap_self _ _
    · split at h
      · rename_i e he
        simp only [Except.error.injEq] at h
        rw [← h]
        exact adjustFields_error_is lib pkg e (by rw [he])
      · rename_i adj he
        split at h
        · rename_i e2 he2
          simp only [Except.error.injEq] at h
          subst h
          exact ih _ he2
        · cases h

/-- When the loop of `NewResolver` succeeds, its result is the list of the
adjusted input records, in input order, and every input record adjusts
without error. -/
theorem newResolverLoop_ok (lib : NetURL) (l : List Package) (pm : List String)
    (adjs : List Package) (h : newResolverLoop lib l pm = .ok adjs) :
    List.Forall₂ (fun pkg adj => AdjustFields lib pkg = (adj, none)) l adjs := by
  induction l generalizing pm adjs with
  | nil =>
    simp only [newResolverLoop, Except.ok.injEq] at h
    rw [← h]; exact List.Forall₂.nil
  | cons pkg rest ih =>
    unfold newResolverLoop at h
    split_ifs at h with hc
    split at h
    · cases h
    · rename_i adj he
      split at h
      · cases h
      · rename_i as he2
        simp only [Except.ok.injEq] at h
        rw [← h]
        exact List.Forall₂.cons he (ih _ _ he2)

/-- The record set of a resolver built by `NewResolver` is sorted by `Path`
and is a rearrangement of the adjusted input records. -/
theorem newResolver_ok (lib : NetURL) (input : List Package) (r : resolver)
    (h : NewResolver lib input = (some r, none)) :
    SortedByPath r.pset ∧
    ∃ adjs, List.Forall₂ (fun pkg adj => AdjustFields lib pkg = (adj, none)) input adjs ∧
      r.pset.Perm adjs := by
  unfold NewResolver at h
  split at h
  · simp at h
  · rename_i adjs hl
    simp only [Prod.mk.injEq, Option.some.injEq, and_true] at h
    rw [← h]
    exact ⟨slicesSortFunc_sorted adjs, adjs, newResolverLoop_ok lib input [] adjs hl,
      slicesSortFunc_perm _ adjs⟩

/-- A record of a resolver built by `NewResolver` is the adjusted form of an input record. -/
theorem newResolver_mem (lib : NetURL) (input : List Package) (r : resolver)
    (h : NewResolver lib input = (some r, none)) (k : Package) (hk : k ∈ r.pset) :
    ∃ pkg ∈ input, AdjustFields lib pkg = (k, none) := by
  obtain ⟨_, adjs, hf, hperm⟩ := newResolver_ok lib input r h
  have hk2 : k ∈ adjs := hperm.subset hk
  clear hperm hk h
  induction hf with
  | nil => cases hk2
  | cons hab _ ih =>
    rcases List.mem_cons.mp hk2 with hk3 | hk3
    · rw [hk3]; exact ⟨_, List.mem_cons_self _ _, hab⟩
    · obtain ⟨pkg, hp1, hp2⟩ := ih hk3
      exact ⟨pkg, List.mem_cons_of_mem _ hp1, hp2⟩

/-! ## Claims about the lookup -/

/-- C1. Most-specific match wins: when a resolver built by `NewResolver`
returns record `k` for a request path `p`, no record of the set with a longer
`Path` equals `p` or has `Path + "/"` as a prefix of `p` (this holds whether or
not the normalized paths are distinct).  In particular, with records `/foo` and
`/foo/bar`, both `/foo/bar` and `/foo/bar/baz` resolve to `/foo/bar`. -/
theorem C1_most_specific_match_wins :
    (∀ (lib : NetURL) (input : List Package) (r : resolver) (p : String) (k : Package),
      NewResolver lib input = (some r, none) →
      r.ResolvePackage p = (k, none) →
      ∀ rec ∈ r.pset, goLen rec.Path > goLen k.Path →
        ¬ (rec.Path = p ∨ HasPrefix p (rec.Path ++ "/") = true)) ∧
    (∃ r, NewResolver goURL [pkgFoo, pkgFooBar] = (some r, none) ∧
      r.ResolvePackage "/foo/bar" = (pkgFooBar, none) ∧
      r.ResolvePackage "/foo/bar/baz" = (pkgFooBar, none)) := by
  refine ⟨?_, ⟨⟨[pkgFoo, pkgFooBar]⟩, by decide, by decide, by decide⟩⟩
  intro lib input r p k hnew hres rec hrec hlen
  obtain ⟨hs, _⟩ := newResolver_ok lib input r hnew
  exact resolve_most_specific r.pset hs p k hres rec hrec hlen

/-- C1, at a concrete input: with records `/foo` and `/foo/bar`, the path
`/foo/baz` resolves to `/foo`, and the longer record `/foo/bar` does not own it. -/
theorem C1_most_specific_match_wins_witness :
    NewResolver goURL [pkgFoo, pkgFooBar] = (some ⟨[pkgFoo, pkgFooBar]⟩, none) ∧
    resolver.ResolvePackage ⟨[pkgFoo, pkgFooBar]⟩ "/foo/baz" = (pkgFoo, none) ∧
    ¬ (pkgFooBar.Path = "/foo/baz" ∨ HasPrefix "/foo/baz" (pkgFooBar.Path ++ "/") = true) :=
  ⟨by decide, by decide,
    C1_most_specific_match_wins.1 goURL [pkgFoo, pkgFooBar] ⟨[pkgFoo, pkgFooBar]⟩ "/foo/baz"
      pkgFoo (by decide) (by decide) pkgFooBar (by decide) (by decide)⟩

/-- C2. Prefix ownership respects segment boundaries: when a resolver built by
`NewResolver` returns package `k` for a request path `p`, `k` is a record of the
resolver, it is the adjusted form of an input record, and `k.Path` is `p` or
`k.Path + "/"` is a prefix of `p`.  With records `/foo` and `/bar`, `/foobar` and
`/baz` are not found and `/bar/anything` resolves to `/bar`. -/
theorem C2_prefix_ownership_at_segment_boundaries :
    (∀ (lib : NetURL) (input : List Package) (r : resolver) (p : String) (k : Package),
      NewResolver lib input = (some r, none) →
      r.ResolvePackage p = (k, none) →
      k ∈ r.pset ∧ (∃ pkg ∈ input, AdjustFields lib pkg = (k, none)) ∧
        (k.Path = p ∨ HasPrefix p (k.Path ++ "/") = true)) ∧
    (∃ r, NewResolver goURL [pkgFoo, pkgBar] = (some r, none) ∧
      r.ResolvePackage "/foobar" = (Package.zero, some ErrPackageNotFound) ∧
      r.ResolvePackage "/baz" = (Package.zero, some ErrPackageNotFound) ∧
      r.ResolvePackage "/bar/anything" = (pkgBar, none)) := by
  refine ⟨?_, ⟨⟨[pkgBar, pkgFoo]⟩, by decide, by decide, by decide, by decide⟩⟩
  intro lib input r p k hnew hres
  obtain ⟨hs, _⟩ := newResolver_ok lib input r hnew
  obtain ⟨hmem, hown⟩ := resolve_sound r.pset hs p k hres
  exact ⟨hmem, newResolver_mem lib input r hnew k hmem, hown⟩

/-- C2, at a concrete input: with records `/foo` and `/bar`, the path `/bar/baz`
resolves to the record `/bar`, whose `Path + "/"` is a prefix of it. -/
theorem C2_prefix_ownership_at_segment_boundaries_witness :
    NewResolver goURL [pkgFoo, pkgBar] = (some ⟨[pkgBar, pkgFoo]⟩, none) ∧
    resolver.ResolvePackage ⟨[pkgBar, pkgFoo]⟩ "/bar/baz" = (pkgBar, none) ∧
    (pkgBar ∈ [pkgBar, pkgFoo] ∧
      (∃ pkg ∈ [pkgFoo, pkgBar], AdjustFields goURL pkg = (pkgBar, none)) ∧
      (pkgBar.Path = "/bar/baz" ∨ HasPrefix "/bar/baz" (pkgBar.Path ++ "/") = true)) :=
  ⟨by decide, by decide,
    C2_prefix_ownership_at_segment_boundaries.1 goURL [pkgFoo, pkgBar] ⟨[pkgBar, pkgFoo]⟩
      "/bar/baz" pkgBar (by decide) (by decide)⟩

/-- C3. A resolver built by `NewResolver` returns the zero `Package` with
`ErrPackageNotFound` for a request path `p` if and only if no record of the set
has `Path` equal to `p` or `Path + "/"` a prefix of `p`; every call returns either
no error or exactly that result; and a resolver built from no packages returns
it for every path. -/
theorem C3_not_found_iff_no_owner :
    (∀ (lib : NetURL) (input : List Package) (r : resolver) (p : String),
      NewResolver lib input = (some r, none) →
      (r.ResolvePackage p = (Package.zero, some ErrPackageNotFound) ↔
        ∀ rec ∈ r.pset, ¬ (rec.Path = p ∨ HasPrefix p (rec.Path ++ "/") = true))) ∧
    (∀ (r : resolver) (p : String),
      (r.ResolvePackage p).2 = none ∨
        r.ResolvePackage p = (Package.zero, some ErrPackageNotFound)) ∧
    (∀ (lib : NetURL), ∃ r, NewResolver lib [] = (some r, none) ∧
      ∀ p, r.ResolvePackage p = (Package.zero, some ErrPackageNotFound)) := by
  refine ⟨?_, ?_, ?_⟩
  · intro lib input r p hnew
    obtain ⟨hs, _⟩ := newResolver_ok lib input r hnew
    exact resolve_notFound_iff r.pset hs p
  · intro r p
    unfold resolver.ResolvePackage
    simp only
    split_ifs
    · exact Or.inl rfl
    · exact Or.inl rfl
    · split
      · exact Or.inl rfl
      · exact Or.inr rfl
  · intro lib
    refine ⟨⟨[]⟩, rfl, ?_⟩
    intro p
    exact (resolve_notFound_iff [] List.Pairwise.nil p).mpr (by simp)

/-- C3, at a concrete input: with records `/foo` and `/bar`, the path `/baz` is
not found, and indeed neither record owns it. -/
theorem C3_not_found_iff_no_owner_witness :
    NewResolver goURL [pkgFoo, pkgBar] = (some ⟨[pkgBar, pkgFoo]⟩, none) ∧
    (resolver.ResolvePackage ⟨[pkgBar, pkgFoo]⟩ "/baz" = (Package.zero, some ErrPackageNotFound) ↔
      ∀ rec ∈ [pkgBar, pkgFoo], ¬ (rec.Path = "/baz" ∨ HasPrefix "/baz" (rec.Path ++ "/") = true)) ∧
    resolver.ResolvePackage ⟨[pkgBar, pkgFoo]⟩ "/baz" = (Package.zero, some ErrPackageNotFound) :=
  ⟨by decide,
    C3_not_found_iff_no_owner.1 goURL [pkgFoo, pkgBar] ⟨[pkgBar, pkgFoo]⟩ "/baz" (by decide),
    by decide⟩

/-! ## Claims about construction -/

theorem newResolverLoop_error_of_mem (lib : NetURL) (l : List Package) (pm : List String)
    (b : Package) (hb : b ∈ l) (hpm : b.Path ∈ pm) :
    ∃ err, newResolverLoop lib l pm = .error err := by
  induction l generalizing pm with
  | nil => cases hb
  | cons pkg rest ih =>
    unfold newResolverLoop
    by_cases hc : pm.contains pkg.Path = true
    · rw [if_pos hc]; exact ⟨_, rfl⟩
    · rw [if_neg hc]
      rcases List.mem_cons.mp hb with hb1 | hb1
      · rw [hb1] at hpm
        exact absurd (by simpa using hpm) hc
      · split
        · exact ⟨_, rfl⟩
        · rename_i adj _
          obtain ⟨err, he⟩ := ih (adj.Path :: pm) hb1 (List.mem_cons_of_mem _ hpm)
          rw [he]; exact ⟨_, rfl⟩

theorem newResolverLoop_error_append (lib : NetURL) (l₁ rest : List Package)
    (h : ∀ pm, ∃ err, newResolverLoop lib rest pm = .error err) (pm : List String) :
    ∃ err, newResolverLoop lib (l₁ ++ rest) pm = .error err := by
  induction l₁ generalizing pm with
  | nil => exact h pm
  | cons pkg l ih =>
    rw [List.cons_append]
    unfold newResolverLoop
    split_ifs
    · exact ⟨_, rfl⟩
    · split
      · exact ⟨_, rfl⟩
      · rename_i adj _
        obtain ⟨err, he⟩ := ih (adj.Path :: pm)
        rw [he]; exact ⟨_, rfl⟩

/-- C5. Whenever the input holds two records with the same `Path` string `P`
that is already in normalized form (normalizing `P` gives `P`), whatever the
other records and fields are, `NewResolver` returns no resolver and an error
that wraps `ErrInvalidPackage`. -/
theorem C5_same_normalized_path_twice_rejected (lib : NetURL) (l₁ l₂ l₃ : List Package)
    (a b : Package) (P : String) (ha : a.Path = P) (hb : b.Path = P)
    (hP : adjustPath P = P) :
    ∃ err, NewResolver lib (l₁ ++ a :: (l₂ ++ b :: l₃)) = (none, some err) ∧
      errorsIs err ErrInvalidPackage = true := by
  have hloop : ∃ err, newResolverLoop lib (l₁ ++ a :: (l₂ ++ b :: l₃)) [] = .error err := by
    apply newResolverLoop_error_append
    intro pm
    unfold newResolverLoop
    split_ifs
    · exact ⟨_, rfl⟩
    · split
      · exact ⟨_, rfl⟩
      · rename_i adj hadj
        have hpath : adj.Path = P := by
          rw [adjustFields_path lib a adj hadj, ha, hP]
        obtain ⟨err, he⟩ := newResolverLoop_error_of_mem lib (l₂ ++ b :: l₃) (adj.Path :: pm) b
          (List.mem_append_right _ (List.mem_cons_self _ _))
          (by rw [hb, hpath]; exact List.mem_cons_self _ _)
        rw [he]; exact ⟨_, rfl⟩
  obtain ⟨err, he⟩ := hloop
  refine ⟨err, ?_, newResolverLoop_error_is lib _ [] err he⟩
  unfold NewResolver
  rw [he]

/-- C5, at a concrete input: the record `/foo` of the tests given twice. -/
theorem C5_same_normalized_path_twice_rejected_witness :
    ∃ err, NewResolver goURL ([] ++ pkgFoo :: ([] ++ pkgFoo :: [])) = (none, some err) ∧
      errorsIs err ErrInvalidPackage = true :=
  C5_same_normalized_path_twice_rejected goURL [] [] [] pkgFoo pkgFoo "/foo"
    (by decide) (by decide) (by decide)

/-- C4. The code accepts records whose normalized paths coincide: the paths
`/foo` and `foo` both normalize to `/foo`, and so does `foo` given twice, yet
`NewResolver` succeeds in both cases with two records of path `/foo`. -/
theorem C4_duplicate_normalized_paths_accepted :
    AdjustFields goURL pkgFoo = (pkgFoo, none) ∧
    AdjustFields goURL pkgFooRelative = (pkgFoo, none) ∧
    NewResolver goURL [pkgFoo, pkgFooRelative] = (some ⟨[pkgFoo, pkgFoo]⟩, none) ∧
    NewResolver goURL [pkgFooRelative, pkgFooRelative] = (some ⟨[pkgFoo, pkgFoo]⟩, none) := by
  decide

/-- C6. The code rejects records whose normalized paths are distinct: the paths
`/foo//` and `/foo/` normalize without error to `/foo/` and `/foo`, yet
`NewResolver` fails with a "duplicate paths" error. -/
theorem C6_distinct_normalized_paths_rejected :
    AdjustFields goURL pkgFooTwoSlashes = (pkgFooSlash, none) ∧
    AdjustFields goURL pkgFooSlash = (pkgFoo, none) ∧
    pkgFooSlash.Path ≠ pkgFoo.Path ∧
    NewResolver goURL [pkgFooTwoSlashes, pkgFooSlash] =
      (none, some (.wrap "vanityurl: invalid package: duplicate paths: /foo/"
        ErrInvalidPackage)) := by
  decide

/-! ## Claims about `AdjustFields` -/

theorem hasSuffix_iff (s suf : String) :
    HasSuffix s suf = true ↔ ∃ t, s.data = t ++ suf.data := by
  unfold HasSuffix
  rw [List.isPrefixOf_iff_prefix]
  constructor
  · rintro ⟨t, ht⟩
    refine ⟨t.reverse, ?_⟩
    have := congrArg List.reverse ht
    simpa using this.symm
  · rintro ⟨t, ht⟩
    refine ⟨t.reverse, ?_⟩
    rw [ht]; simp

/-- Go `strings.TrimSuffix(t, "/")` removes exactly one trailing `/` when there is
one and returns `t` otherwise. -/
theorem trimSuffix_slash (t : String) :
    (∃ s, t.data = s ++ ['/'] ∧ (TrimSuffix t "/").data = s) ∨
    (HasSuffix t "/" = false ∧ TrimSuffix t "/" = t) := by
  cases h : HasSuffix t "/" with
  | true =>
    left
    obtain ⟨s, hs⟩ := (hasSuffix_iff t "/").mp h
    refine ⟨s, hs, ?_⟩
    simp only [TrimSuffix, h, if_true]
    rw [hs]
    simp
  | false =>
    right
    exact ⟨rfl, by simp [TrimSuffix, h]⟩

theorem trimSpaceList_of_all_space (l : List Char) (h : ∀ c ∈ l, isSpace c = true) :
    trimSpaceList l = [] := by
  have : l.dropWhile isSpace = [] := by
    rw [List.dropWhile_eq_nil_iff]; exact h
  simp [trimSpaceList, this]

theorem adjustPath_hasPrefix (path : String) : HasPrefix (adjustPath path) "/" = true := by
  unfold adjustPath
  simp only
  split_ifs with h
  · rw [hasPrefix_iff]; exact ⟨_, String.data_append _ _⟩
  · simpa using h

/-- Unless the trimmed path ends with two slashes, the cleaned-up path ends
with a slash only when it is the root. -/
theorem adjustPath_no_trailing_slash (path : String)
    (h2 : HasSuffix (TrimSpace path) "//" = false)
    (hs : HasSuffix (adjustPath path) "/" = true) : adjustPath path = "/" := by
  unfold adjustPath at hs ⊢
  simp only at hs ⊢
  rcases trimSuffix_slash (TrimSpace path) with ⟨s, hs1, hs2⟩ | ⟨hn, he⟩
  · -- one slash was removed: what is left must not end with a slash
    have hsn : ∀ u, s ≠ u ++ ['/'] := by
      intro u hu
      have : HasSuffix (TrimSpace path) "//" = true := by
        rw [hasSuffix_iff]
        exact ⟨u, by rw [hs1, hu]; simp⟩
      rw [h2] at this; cases this
    split_ifs at hs ⊢ with hp
    · obtain ⟨u, hu⟩ := (hasSuffix_iff _ _).mp hs
      simp only [String.data_append, hs2] at hu
      apply String.ext
      simp only [String.data_append, hs2]
      rcases List.eq_nil_or_concat s with hnil | ⟨s', c, hc⟩
      · rw [hnil]; rfl
      · rw [hc] at hu
        simp only [List.concat_eq_append] at hu hc
        rw [← List.append_assoc] at hu
        have := List.append_inj' hu rfl
        have hc2 : c = '/' := by simpa using this.2
        exact absurd (by rw [hc, hc2]) (hsn s')
    · obtain ⟨u, hu⟩ := (hasSuffix_iff _ _).mp hs
      rw [hs2] at hu
      exact absurd hu (hsn u)
  · rw [he] at hs ⊢
    split_ifs at hs ⊢ with hp
    · obtain ⟨u, hu⟩ := (hasSuffix_iff _ _).mp hs
      simp only [String.data_append] at hu
      apply String.ext
      simp only [String.data_append]
      rcases List.eq_nil_or_concat (TrimSpace path).data with hnil | ⟨s', c, hc⟩
      · rw [hnil]; rfl
      · rw [hc] at hu
        simp only [List.concat_eq_append] at hu hc
        rw [← List.append_assoc] at hu
        have := List.append_inj' hu rfl
        have hc2 : c = '/' := by simpa using this.2
        have : HasSuffix (TrimSpace path) "/" = true := by
          rw [hasSuffix_iff]; exact ⟨s', by rw [hc, hc2]⟩
        rw [hn] at this; cases this
    · rw [hn] at hs; cases hs

/-- What a successful `AdjustFields` returns, in terms of the parsed repository URL. -/
theorem adjustFields_ok_inv (lib : NetURL) (pkg q : Package)
    (h : AdjustFields lib pkg = (q, none)) :
    ∃ u, lib.Parse (TrimSpace pkg.RepositoryURL) = .ok u ∧ lib.QueryLen u = 0 ∧
      ["https", "http"].contains u.Scheme = true ∧
      VCS.Valid q.VCS = true ∧
      q = { Path := adjustPath pkg.Path,
            VCS := cmpOr 0 [pkg.VCS, DetectVCS lib (u.Scheme ++ "://" ++ u.Host ++ u.Path)],
            Display := cmpOr "" [pkg.Display,
              DetectDisplay lib (u.Scheme ++ "://" ++ u.Host ++ u.Path)],
            RepositoryURL := u.Scheme ++ "://" ++ u.Host ++ u.Path } := by
  cases hu : lib.Parse (TrimSpace pkg.RepositoryURL) with
  | error e =>
    rw [adjustFields_of_parse_error lib pkg e hu] at h
    simp at h
  | ok u =>
    rw [adjustFields_of_parse lib pkg u hu] at h
    split_ifs at h with h1 h2 h3
    · simp at h
    · simp at h
    · simp at h
    · simp only [Prod.mk.injEq, and_true] at h
      refine ⟨u, rfl, by omega, ?_, ?_, h.symm⟩
      · cases hc : ["https", "http"].contains u.Scheme with
        | true => rfl
        | false => rw [hc] at h2; exact absurd rfl h2
      · rw [← h]
        simpa using h3

theorem adjustPath_fixed (s : String) (hts : TrimSpace s = s)
    (hsl : HasSuffix s "/" = true → s = "/") (hpre : HasPrefix s "/" = true) :
    adjustPath s = s := by
  unfold adjustPath
  simp only
  rw [hts]
  cases hsuf : HasSuffix s "/" with
  | true =>
    have := hsl hsuf
    subst this
    decide
  | false =>
    have : TrimSuffix s "/" = s := by simp [TrimSuffix, hsuf]
    rw [this]
    simp [hpre]

/-- C7 (amended). Normalization is idempotent on a successful result `q` whose
`Path` has no surrounding white space and no trailing `/` (unless it is `/`)
and whose `RepositoryURL` parses again, without query parameters and with
scheme `http` or `https`, to a scheme, host and path that reassemble to it:
then `AdjustFields(q)` succeeds and returns `q` unchanged. -/
theorem C7_idempotent_on_canonical_results (lib : NetURL) (p q : Package)
    (h : AdjustFields lib p = (q, none))
    (hws : TrimSpace q.Path = q.Path)
    (hsl : HasSuffix q.Path "/" = true → q.Path = "/")
    (hurl : ∃ u, lib.Parse (TrimSpace q.RepositoryURL) = .ok u ∧ lib.QueryLen u = 0 ∧
      (u.Scheme = "https" ∨ u.Scheme = "http") ∧
      u.Scheme ++ "://" ++ u.Host ++ u.Path = q.RepositoryURL) :
    AdjustFields lib q = (q, none) := by
  obtain ⟨u, _, _, _, hvalid, hq⟩ := adjustFields_ok_inv lib p q h
  obtain ⟨w, hw, hwq, hws2, hwr⟩ := hurl
  have hpre : HasPrefix q.Path "/" = true := by
    rw [adjustFields_path lib p q h]; exact adjustPath_hasPrefix _
  have hpath : adjustPath q.Path = q.Path := adjustPath_fixed q.Path hws hsl hpre
  have hvcs : cmpOr 0 [q.VCS, DetectVCS lib q.RepositoryURL] = q.VCS := by
    have hne : q.VCS ≠ 0 := by
      intro h0
      rw [h0] at hvalid
      exact absurd hvalid (by decide)
    simp [cmpOr, hne]
  have hdisp : cmpOr "" [q.Display, DetectDisplay lib q.RepositoryURL] = q.Display := by
    by_cases hd : q.Display = ""
    · have hqd : q.Display =
          cmpOr "" [p.Display, DetectDisplay lib (u.Scheme ++ "://" ++ u.Host ++ u.Path)] := by
        rw [hq]
      have hqr : q.RepositoryURL = u.Scheme ++ "://" ++ u.Host ++ u.Path := by
        rw [hq]
      rw [← hqr] at hqd
      rw [hd] at hqd ⊢
      simp only [cmpOr] at hqd ⊢
      by_cases hD : DetectDisplay lib q.RepositoryURL = ""
      · simp [hD]
      · by_cases hP : p.Display = ""
        · simp [hP, hD] at hqd
          exact absurd hqd.symm hD
        · simp [hP] at hqd
          exact absurd hqd.symm hP
    · simp [cmpOr, hd]
  rw [adjustFields_of_parse lib q w hw, hwr, hvcs, hdisp, hpath]
  have hsch : ["https", "http"].contains w.Scheme = true := by
    rcases hws2 with hh | hh <;> simp [hh]
  rw [if_neg (by omega), if_neg (by rw [hsch]; decide), if_neg (by rw [hvalid]; decide)]

/-- C7 (amended), at a concrete input: the record `/foo` of the tests is
returned unchanged, and adjusting the result again returns it unchanged. -/
theorem C7_idempotent_on_canonical_results_witness :
    AdjustFields goURL pkgFoo = (pkgFoo, none) :=
  C7_idempotent_on_canonical_results goURL pkgFoo pkgFoo (by decide) (by decide) (by decide)
    ⟨⟨"https", "git.example.com", "/foo", ""⟩, rfl, by decide, by decide, by decide⟩

/-- C7 fails as stated: the path `/foo//` normalizes to `/foo/`, which
normalizes to `/foo`; and the repository URL `https://git.example.com/a%3Fb`
normalizes to `https://git.example.com/a?b`, on which `AdjustFields` fails. -/
theorem C7_not_idempotent :
    (∃ q, AdjustFields goURL pkgFooTwoSlashes = (q, none) ∧
      AdjustFields goURL q = (pkgFoo, none) ∧ q ≠ pkgFoo) ∧
    (∃ q, AdjustFields goURL pkgEscapedQuery = (q, none) ∧
      q.RepositoryURL = "https://git.example.com/a?b" ∧
      (AdjustFields goURL q).2 ≠ none) := by
  refine ⟨⟨pkgFooSlash, by decide, by decide, by decide⟩,
    ⟨{ pkgFoo with RepositoryURL := "https://git.example.com/a?b" }, by decide, by decide,
      by decide⟩⟩

/-- C8 (amended). For every package for which `AdjustFields` succeeds, the
resulting `Path` starts with `/`; and unless the white-space-trimmed input path
ends with `//` without being `//` itself, the result does not end with `/`
unless it is exactly `/`. -/
theorem C8_path_canonical_form (lib : NetURL) (pkg q : Package)
    (h : AdjustFields lib pkg = (q, none)) :
    HasPrefix q.Path "/" = true ∧
    ((HasSuffix (TrimSpace pkg.Path) "//" = true → TrimSpace pkg.Path = "//") →
      HasSuffix q.Path "/" = true → q.Path = "/") := by
  rw [adjustFields_path lib pkg q h]
  refine ⟨adjustPath_hasPrefix _, ?_⟩
  intro h2 hs
  cases hsuf : HasSuffix (TrimSpace pkg.Path) "//" with
  | false => exact adjustPath_no_trailing_slash pkg.Path hsuf hs
  | true =>
    have ht := h2 hsuf
    unfold adjustPath
    simp only
    rw [ht]
    decide

/-- C8 (amended), at a concrete input: the path `/foo/` becomes `/foo`. -/
theorem C8_path_canonical_form_witness :
    HasPrefix pkgFoo.Path "/" = true ∧
    ((HasSuffix (TrimSpace pkgFooSlash.Path) "//" = true → TrimSpace pkgFooSlash.Path = "//") →
      HasSuffix pkgFoo.Path "/" = true → pkgFoo.Path = "/") :=
  C8_path_canonical_form goURL pkgFooSlash pkgFoo (by decide)

/-- C8 fails as stated: the path `/foo//` normalizes without error to `/foo/`,
which ends with `/` and is not `/`. -/
theorem C8_trailing_slash_survives :
    AdjustFields goURL pkgFooTwoSlashes = (pkgFooSlash, none) ∧
    HasSuffix pkgFooSlash.Path "/" = true ∧ pkgFooSlash.Path ≠ "/" := by
  decide

/-- C9. For every package for which `AdjustFields` succeeds, the resulting
`Path` is the input `Path` with surrounding white space trimmed, one trailing
`/` removed if present, and `/` put in front unless the result already starts
with `/`; it is the same for two inputs with the same `Path`, whatever their
other fields.  Removing the trailing `/` removes exactly one; an empty or
white-space-only path becomes `/`, `foo` becomes `/foo` and `/foo/` becomes
`/foo`. -/
theorem C9_path_normalization :
    (∀ (lib : NetURL) (pkg q : Package), AdjustFields lib pkg = (q, none) →
      q.Path =
        if HasPrefix (TrimSuffix (TrimSpace pkg.Path) "/") "/" = true
        then TrimSuffix (TrimSpace pkg.Path) "/"
        else "/" ++ TrimSuffix (TrimSpace pkg.Path) "/") ∧
    (∀ (lib : NetURL) (pkg₁ pkg₂ q₁ q₂ : Package), pkg₁.Path = pkg₂.Path →
      AdjustFields lib pkg₁ = (q₁, none) → AdjustFields lib pkg₂ = (q₂, none) →
      q₁.Path = q₂.Path) ∧
    (∀ (t : String),
      (∃ s, t.data = s ++ ['/'] ∧ (TrimSuffix t "/").data = s) ∨
      (HasSuffix t "/" = false ∧ TrimSuffix t "/" = t)) ∧
    (∀ (lib : NetURL) (pkg q : Package), (∀ c ∈ pkg.Path.data, isSpace c = true) →
      AdjustFields lib pkg = (q, none) → q.Path = "/") ∧
    AdjustFields goURL pkgFooRelative = (pkgFoo, none) ∧
    AdjustFields goURL pkgFooSlash = (pkgFoo, none) := by
  refine ⟨?_, ?_, trimSuffix_slash, ?_, by decide, by decide⟩
  · intro lib pkg q h
    rw [adjustFields_path lib pkg q h]
    unfold adjustPath
    simp only
    by_cases hp : HasPrefix (TrimSuffix (TrimSpace pkg.Path) "/") "/" = true
    · simp [hp]
    · simp [hp]
  · intro lib pkg₁ pkg₂ q₁ q₂ hpath h₁ h₂
    rw [adjustFields_path lib pkg₁ q₁ h₁, adjustFields_path lib pkg₂ q₂ h₂, hpath]
  · intro lib pkg q hsp h
    rw [adjustFields_path lib pkg q h]
    have : TrimSpace pkg.Path = "" := by
      apply String.ext
      exact trimSpaceList_of_all_space _ hsp
    unfold adjustPath
    simp only
    rw [this]
    decide

/-- C9, at a concrete input: the path `foo` of a record that adjusts without
error becomes `/foo`. -/
theorem C9_path_normalization_witness :
    pkgFoo.Path =
      if HasPrefix (TrimSuffix (TrimSpace pkgFooRelative.Path) "/") "/" = true
      then TrimSuffix (TrimSpace pkgFooRelative.Path) "/"
      else "/" ++ TrimSuffix (TrimSpace pkgFooRelative.Path) "/" :=
  C9_path_normalization.1 goURL pkgFooRelative pkgFoo (by decide)

/-- C10. `AdjustFields` fails if and only if the white-space-trimmed
`RepositoryURL` fails to parse, or it parses to a URL that has at least one
query parameter, or whose scheme is neither `http` nor `https`, or for which the
`VCS` (the input `VCS` when it is not zero, otherwise the one detected from the
host of the normalized URL) is not one of `Git`, `Svn`, `Mercurial`, `Bazaar`. -/
theorem C10_adjustFields_fails_iff (lib : NetURL) (pkg : Package) :
    (AdjustFields lib pkg).2 ≠ none ↔
      (∃ err, lib.Parse (TrimSpace pkg.RepositoryURL) = .error err) ∨
      (∃ u, lib.Parse (TrimSpace pkg.RepositoryURL) = .ok u ∧
        (lib.QueryLen u > 0 ∨ (u.Scheme ≠ "http" ∧ u.Scheme ≠ "https") ∨
          (if pkg.VCS ≠ 0 then pkg.VCS
            else DetectVCS lib (u.Scheme ++ "://" ++ u.Host ++ u.Path))
              ∉ [Git, Svn, Mercurial, Bazaar])) := by
  cases hu : lib.Parse (TrimSpace pkg.RepositoryURL) with
  | error e =>
    rw [adjustFields_of_parse_error lib pkg e hu]
    simp
  | ok u =>
    rw [adjustFields_of_parse lib pkg u hu]
    have hcmp : cmpOr 0 [pkg.VCS, DetectVCS lib (u.Scheme ++ "://" ++ u.Host ++ u.Path)] =
        (if pkg.VCS ≠ 0 then pkg.VCS
          else DetectVCS lib (u.Scheme ++ "://" ++ u.Host ++ u.Path)) := by
      simp only [cmpOr]
      split_ifs <;> simp_all
    have hvalid : ∀ v : VCS, VCS.Valid v = true ↔ v ∈ [Git, Svn, Mercurial, Bazaar] := by
      intro v
      simp [VCS.Valid, validVCS]
    have hsch : ["https", "http"].contains u.Scheme = true ↔
        ¬ (u.Scheme ≠ "http" ∧ u.Scheme ≠ "https") := by
      have h0 : ["https", "http"].contains u.Scheme = true ↔
          (u.Scheme = "https" ∨ u.Scheme = "http") := by simp
      rw [h0]
      constructor
      · rintro (h | h) ⟨h1, h2⟩
        · exact h2 h
        · exact h1 h
      · intro h
        by_cases hh : u.Scheme = "http"
        · exact Or.inr hh
        · by_contra hc
          exact h ⟨hh, fun h3 => hc (Or.inl h3)⟩
    rw [hcmp]
    constructor
    · intro h
      right
      refine ⟨u, rfl, ?_⟩
      by_cases h1 : lib.QueryLen u > 0
      · exact Or.inl h1
      · rw [if_neg h1] at h
        by_cases h2 : ["https", "http"].contains u.Scheme = true
        · right; right
          rw [if_neg (by rw [h2]; decide)] at h
          intro hmem
          rw [← hvalid] at hmem
          rw [if_neg (by rw [hmem]; decide)] at h
          exact h rfl
        · right; left
          by_contra hc
          exact h2 (hsch.mpr hc)
    · rintro (⟨e, he⟩ | ⟨w, hw, hcase⟩)
      · cases he
      · simp only [Except.ok.injEq] at hw
        subst hw
        by_cases h1 : lib.QueryLen u > 0
        · rw [if_pos h1]; simp
        · rw [if_neg h1]
          by_cases h2 : ["https", "http"].contains u.Scheme = true
          · rw [if_neg (by rw [h2]; decide)]
            rcases hcase with hq | hs | hv
            · exact absurd hq h1
            · exact absurd hs (hsch.mp h2)
            · rw [← hvalid] at hv
              rw [if_pos (by simpa using hv)]
              simp
          · rw [if_pos (by simpa using h2)]
            simp

/-! ## Claims about errors and the fields of a normalized record -/

/-- A failing `AdjustFields` returns the zero package. -/
theorem adjustFields_error_zero (lib : NetURL) (pkg : Package) (err : GoError)
    (h : (AdjustFields lib pkg).2 = some err) : (AdjustFields lib pkg).1 = Package.zero := by
  cases hu : lib.Parse (TrimSpace pkg.RepositoryURL) with
  | error e => rw [adjustFields_of_parse_error lib pkg e hu]
  | ok u =>
    rw [adjustFields_of_parse lib pkg u hu] at h ⊢
    split_ifs at h ⊢
    · rfl
    · rfl
    · rfl

/-- C11. Every error returned by `AdjustFields` and every error returned by
`NewResolver` wraps `ErrInvalidPackage`; a failing `AdjustFields` returns the
zero `Package` and a failing `NewResolver` returns no resolver.  The record of
the test `invalid_package` makes both fail. -/
theorem C11_errors_are_invalid_package :
    (∀ (lib : NetURL) (pkg : Package) (err : GoError),
      (AdjustFields lib pkg).2 = some err →
      errorsIs err ErrInvalidPackage = true ∧ (AdjustFields lib pkg).1 = Package.zero) ∧
    (∀ (lib : NetURL) (input : List Package) (err : GoError),
      (NewResolver lib input).2 = some err →
      errorsIs err ErrInvalidPackage = true ∧ (NewResolver lib input).1 = none) ∧
    (∃ err, AdjustFields goURL pkgInvalidScheme = (Package.zero, some err) ∧
      NewResolver goURL [pkgBar, pkgInvalidScheme] = (none, some err)) := by
  refine ⟨?_, ?_, ⟨.wrap "vanityurl: invalid package: invalid repository url schema: none"
    ErrInvalidPackage, by decide, by decide⟩⟩
  · intro lib pkg err h
    exact ⟨adjustFields_error_is lib pkg err h, adjustFields_error_zero lib pkg err h⟩
  · intro lib input err h
    unfold NewResolver at h ⊢
    cases hl : newResolverLoop lib input [] with
    | error e =>
      rw [hl] at h
      simp only [Option.some.injEq] at h
      subst h
      exact ⟨newResolverLoop_error_is lib input [] e hl, rfl⟩
    | ok adjs =>
      rw [hl] at h
      cases h

/-- C11, at a concrete input: the record of the test `invalid_package`, whose
scheme is `none`, makes `AdjustFields` and `NewResolver` fail. -/
theorem C11_errors_are_invalid_package_witness :
    (AdjustFields goURL pkgInvalidScheme).2 =
      some (.wrap "vanityurl: invalid package: invalid repository url schema: none"
        ErrInvalidPackage) ∧
    (errorsIs (.wrap "vanityurl: invalid package: invalid repository url schema: none"
        ErrInvalidPackage) ErrInvalidPackage = true ∧
      (AdjustFields goURL pkgInvalidScheme).1 = Package.zero) ∧
    (errorsIs (.wrap "vanityurl: invalid package: invalid repository url schema: none"
        ErrInvalidPackage) ErrInvalidPackage = true ∧
      (NewResolver goURL [pkgInvalidScheme]).1 = none) :=
  ⟨by decide,
    C11_errors_are_invalid_package.1 goURL pkgInvalidScheme _ (by decide),
    C11_errors_are_invalid_package.2.1 goURL [pkgInvalidScheme] _ (by decide)⟩

theorem contains_scheme_iff (s : String) :
    ["https", "http"].contains s = true ↔ (s = "https" ∨ s = "http") := by simp

/-- C12. For every package for which `AdjustFields` succeeds, the trimmed
input URL parses to a URL whose scheme is `http` or `https`, and the resulting
`RepositoryURL` is exactly its scheme, `://`, its host and its path; so two
inputs whose URLs agree on these three components get the same result, whatever
else the URLs hold.  User information, an empty query and a fragment of the
input are dropped. -/
theorem C12_repository_url_rebuilt :
    (∀ (lib : NetURL) (pkg q : Package), AdjustFields lib pkg = (q, none) →
      ∃ u, lib.Parse (TrimSpace pkg.RepositoryURL) = .ok u ∧
        (u.Scheme = "http" ∨ u.Scheme = "https") ∧
        q.RepositoryURL = u.Scheme ++ "://" ++ u.Host ++ u.Path) ∧
    (∀ (lib : NetURL) (pkg₁ pkg₂ q₁ q₂ : Package) (u₁ u₂ : URL),
      AdjustFields lib pkg₁ = (q₁, none) → AdjustFields lib pkg₂ = (q₂, none) →
      lib.Parse (TrimSpace pkg₁.RepositoryURL) = .ok u₁ →
      lib.Parse (TrimSpace pkg₂.RepositoryURL) = .ok u₂ →
      u₁.Scheme = u₂.Scheme → u₁.Host = u₂.Host → u₁.Path = u₂.Path →
      q₁.RepositoryURL = q₂.RepositoryURL) ∧
    (goParse "https://user:pw@git.example.com/foo?#frag" =
        .ok ⟨"https", "git.example.com", "/foo", ""⟩ ∧
      pkgFooDecorated.RepositoryURL = " https://user:pw@git.example.com/foo?#frag " ∧
      AdjustFields goURL pkgFooDecorated = (pkgFoo, none) ∧
      pkgFoo.RepositoryURL = "https://git.example.com/foo") := by
  refine ⟨?_, ?_, ⟨rfl, rfl, by decide, rfl⟩⟩
  · intro lib pkg q h
    obtain ⟨u, hu, _, hs, _, hq⟩ := adjustFields_ok_inv lib pkg q h
    refine ⟨u, hu, ?_, by rw [hq]⟩
    rcases (contains_scheme_iff u.Scheme).mp hs with h1 | h1
    · exact Or.inr h1
    · exact Or.inl h1
  · intro lib pkg₁ pkg₂ q₁ q₂ u₁ u₂ h₁ h₂ hu₁ hu₂ hs hh hp
    obtain ⟨w₁, hw₁, _, _, _, hq₁⟩ := adjustFields_ok_inv lib pkg₁ q₁ h₁
    obtain ⟨w₂, hw₂, _, _, _, hq₂⟩ := adjustFields_ok_inv lib pkg₂ q₂ h₂
    rw [hu₁] at hw₁
    rw [hu₂] at hw₂
    simp only [Except.ok.injEq] at hw₁ hw₂
    subst hw₁ hw₂
    rw [hq₁, hq₂]
    simp only [hs, hh, hp]

/-- C12, at a concrete input: the record `/foo` of the tests. -/
theorem C12_repository_url_rebuilt_witness :
    ∃ u, goURL.Parse (TrimSpace pkgFoo.RepositoryURL) = .ok u ∧
      (u.Scheme = "http" ∨ u.Scheme = "https") ∧
      pkgFoo.RepositoryURL = u.Scheme ++ "://" ++ u.Host ++ u.Path :=
  C12_repository_url_rebuilt.1 goURL pkgFoo pkgFoo (by decide)

theorem cmpOr_pair {α : Type} [DecidableEq α] (zero a b : α) :
    cmpOr zero [a, b] = if a ≠ zero then a else b := by
  simp only [cmpOr]
  by_cases ha : a = zero
  · by_cases hb : b = zero
    · simp [ha, hb]
    · simp [ha, hb]
  · simp [ha]

/-- C13. For every package for which `AdjustFields` succeeds, the resulting
`VCS` is the input `VCS` when that is not zero, and `DetectVCS` of the
normalized `RepositoryURL` when it is zero.  A `VCS` set to `Svn` is kept for a
repository on github.com; an unset `VCS` is detected as `Git` there. -/
theorem C13_vcs_kept_or_detected :
    (∀ (lib : NetURL) (pkg q : Package), AdjustFields lib pkg = (q, none) →
      (pkg.VCS ≠ 0 → q.VCS = pkg.VCS) ∧
      (pkg.VCS = 0 → q.VCS = DetectVCS lib q.RepositoryURL)) ∧
    AdjustFields goURL pkgSvnGithub = (pkgSvnGithub, none) ∧
    AdjustFields goURL pkgDetectVCS = ({ pkgDetectVCS with VCS := Git }, none) := by
  refine ⟨?_, by decide, by decide⟩
  intro lib pkg q h
  obtain ⟨u, _, _, _, _, hq⟩ := adjustFields_ok_inv lib pkg q h
  rw [hq]
  simp only [cmpOr_pair]
  constructor
  · intro hne; rw [if_pos hne]
  · intro h0; rw [if_neg (by simpa using h0)]

/-- C13, at a concrete input: the record of the test `detect_vcs`. -/
theorem C13_vcs_kept_or_detected_witness :
    (pkgDetectVCS.VCS ≠ 0 → Git = pkgDetectVCS.VCS) ∧
    (pkgDetectVCS.VCS = 0 → Git = DetectVCS goURL "https://github.com/foo") :=
  C13_vcs_kept_or_detected.1 goURL pkgDetectVCS { pkgDetectVCS with VCS := Git } (by decide)

/-- C14. For every package for which `AdjustFields` succeeds, the resulting
`Display` is the input `Display` when that is not empty, and `DetectDisplay` of
the normalized `RepositoryURL` otherwise; whether `AdjustFields` fails does not
depend on the input `Display`, and a record without `Display` on an unknown host
adjusts without error to an empty `Display`. -/
theorem C14_display_kept_or_detected :
    (∀ (lib : NetURL) (pkg q : Package), AdjustFields lib pkg = (q, none) →
      (pkg.Display ≠ "" → q.Display = pkg.Display) ∧
      (pkg.Display = "" → q.Display = DetectDisplay lib q.RepositoryURL)) ∧
    (∀ (lib : NetURL) (pkg : Package) (d : String),
      (AdjustFields lib { pkg with Display := d }).2 = (AdjustFields lib pkg).2) ∧
    (DetectDisplay goURL "https://git.example.com/foo" = "" ∧
      AdjustFields goURL pkgFooNoDisplay = ({ pkgFoo with Display := "" }, none)) ∧
    AdjustFields goURL pkgDetectDisplay =
      ({ pkgDetectDisplay with Display :=
          "https://github.com/foo https://github.com/foo/tree/master\x7b/dir\x7d https://github.com/foo/blob/master\x7b/dir\x7d/\x7bfile\x7d#L\x7bline\x7d" },
        none) := by
  refine ⟨?_, ?_, ⟨by decide, by decide⟩, by decide⟩
  · intro lib pkg q h
    obtain ⟨u, _, _, _, _, hq⟩ := adjustFields_ok_inv lib pkg q h
    rw [hq]
    simp only [cmpOr_pair]
    constructor
    · intro hne; rw [if_pos hne]
    · intro h0; rw [if_neg (by simpa using h0)]
  · intro lib pkg d
    cases hu : lib.Parse (TrimSpace pkg.RepositoryURL) with
    | error e =>
      rw [adjustFields_of_parse_error lib pkg e hu,
        adjustFields_of_parse_error lib { pkg with Display := d } e hu]
    | ok u =>
      rw [adjustFields_of_parse lib pkg u hu,
        adjustFields_of_parse lib { pkg with Display := d } u hu]
      simp only
      split_ifs <;> rfl

/-- C14, at a concrete input: the record of the test `detect_display`. -/
theorem C14_display_kept_or_detected_witness :
    (pkgDetectDisplay.Display ≠ "" →
      displayGithubOrGitlab "https://github.com/foo" = pkgDetectDisplay.Display) ∧
    (pkgDetectDisplay.Display = "" →
      displayGithubOrGitlab "https://github.com/foo" =
        DetectDisplay goURL "https://github.com/foo") :=
  C14_display_kept_or_detected.1 goURL pkgDetectDisplay
    { pkgDetectDisplay with Display := displayGithubOrGitlab "https://github.com/foo" }
    (by decide)

theorem hasPrefix_append (a b : String) : HasPrefix (a ++ b) a = true := by
  rw [hasPrefix_iff]; exact ⟨b.data, String.data_append a b⟩

/-- The invariant of a normalized record. -/
theorem adjustFields_invariant (lib : NetURL) (pkg q : Package)
    (h : AdjustFields lib pkg = (q, none)) :
    (q.VCS = Git ∨ q.VCS = Svn ∨ q.VCS = Mercurial ∨ q.VCS = Bazaar) ∧
    (HasPrefix q.RepositoryURL "http://" = true ∨
      HasPrefix q.RepositoryURL "https://" = true) := by
  obtain ⟨u, _, _, hs, hv, hq⟩ := adjustFields_ok_inv lib pkg q h
  constructor
  · simpa [VCS.Valid, validVCS] using hv
  · have hurl : q.RepositoryURL = u.Scheme ++ "://" ++ (u.Host ++ u.Path) := by
      rw [hq]; simp [String.append_assoc]
    rw [hurl]
    rcases (contains_scheme_iff u.Scheme).mp hs with h1 | h1
    · right; rw [h1]; exact hasPrefix_append "https://" _
    · left; rw [h1]; exact hasPrefix_append "http://" _

/-- C15. Every package returned by a successful `AdjustFields`, and every
package returned without error by `ResolvePackage` of a resolver built by
`NewResolver`, has a `VCS` that is one of `Git`, `Svn`, `Mercurial`, `Bazaar` and
a `RepositoryURL` that begins with `http://` or `https://`. -/
theorem C15_normalized_record_invariant :
    (∀ (lib : NetURL) (pkg q : Package), AdjustFields lib pkg = (q, none) →
      (q.VCS = Git ∨ q.VCS = Svn ∨ q.VCS = Mercurial ∨ q.VCS = Bazaar) ∧
      (HasPrefix q.RepositoryURL "http://" = true ∨
        HasPrefix q.RepositoryURL "https://" = true)) ∧
    (∀ (lib : NetURL) (input : List Package) (r : resolver) (p : String) (k : Package),
      NewResolver lib input = (some r, none) → r.ResolvePackage p = (k, none) →
      (k.VCS = Git ∨ k.VCS = Svn ∨ k.VCS = Mercurial ∨ k.VCS = Bazaar) ∧
      (HasPrefix k.RepositoryURL "http://" = true ∨
        HasPrefix k.RepositoryURL "https://" = true)) := by
  refine ⟨adjustFields_invariant, ?_⟩
  intro lib input r p k hnew hres
  obtain ⟨hs, _⟩ := newResolver_ok lib input r hnew
  obtain ⟨hmem, _⟩ := resolve_sound r.pset hs p k hres
  obtain ⟨pkg, _, hadj⟩ := newResolver_mem lib input r hnew k hmem
  exact adjustFields_invariant lib pkg k hadj

/-- C15, at a concrete input: the record of the test `detect_vcs`, adjusted and
then resolved for the path `/foo/sub`. -/
theorem C15_normalized_record_invariant_witness :
    ((Git = Git ∨ Git = Svn ∨ Git = Mercurial ∨ Git = Bazaar) ∧
      (HasPrefix "https://github.com/foo" "http://" = true ∨
        HasPrefix "https://github.com/foo" "https://" = true)) ∧
    ((pkgFoo.VCS = Git ∨ pkgFoo.VCS = Svn ∨ pkgFoo.VCS = Mercurial ∨ pkgFoo.VCS = Bazaar) ∧
      (HasPrefix pkgFoo.RepositoryURL "http://" = true ∨
        HasPrefix pkgFoo.RepositoryURL "https://" = true)) :=
  ⟨C15_normalized_record_invariant.1 goURL pkgDetectVCS { pkgDetectVCS with VCS := Git }
      (by decide),
    C15_normalized_record_invariant.2 goURL [pkgFoo] ⟨[pkgFoo]⟩ "/foo/sub" pkgFoo
      (by decide) (by decide)⟩

/-! ## Claims about host detection -/

theorem hostVCSMap_eq_git_iff (host : String) :
    hostVCSMap host = Git ↔
      (host = "github.com" ∨ host = "gitlab.com" ∨ host = "bitbucket.org") := by
  unfold hostVCSMap hostGithub hostGitlab hostBitbucket
  split_ifs with h1 h2 h3
  · simp [h1]
  · simp [h2]
  · simp [h3]
  · simp [h1, h2, h3, Git]

theorem hostVCSMap_git_or_zero (host : String) : hostVCSMap host = Git ∨ hostVCSMap host = 0 := by
  unfold hostVCSMap
  split_ifs <;> simp

/-- C16. `DetectVCS` returns `Git` exactly when the repository URL parses and its
hostname is `github.com`, `gitlab.com` or `bitbucket.org`, and returns 0 for every
other input.  With the Go URL library: the three hosts of the tests and
github.com with a port give `Git`; the empty string, an unparsable URL, another
host and a host in capitals give 0. -/
theorem C16_detectVCS :
    (∀ (lib : NetURL) (repoURL : String),
      (DetectVCS lib repoURL = Git ↔
        ∃ u, lib.Parse repoURL = .ok u ∧
          (lib.Hostname u = "github.com" ∨ lib.Hostname u = "gitlab.com" ∨
            lib.Hostname u = "bitbucket.org")) ∧
      (DetectVCS lib repoURL = Git ∨ DetectVCS lib repoURL = 0)) ∧
    (DetectVCS goURL "https://github.com/example/foo" = Git ∧
      DetectVCS goURL "https://gitlab.com/example/foo" = Git ∧
      DetectVCS goURL "https://bitbucket.org/example/foo" = Git ∧
      DetectVCS goURL "https://github.com:443/example/foo" = Git) ∧
    (DetectVCS goURL "" = 0 ∧
      DetectVCS goURL "invalid\nurl" = 0 ∧
      DetectVCS goURL "https://git.example.com/foo" = 0 ∧
      DetectVCS goURL "https://GitHub.com/example/foo" = 0) := by
  refine ⟨?_, by decide, by decide⟩
  intro lib repoURL
  unfold DetectVCS
  cases hu : lib.Parse repoURL with
  | error e =>
    refine ⟨?_, Or.inr rfl⟩
    constructor
    · intro h
      have h2 : (0 : VCS) = Git := h
      exact absurd h2 (by decide)
    · rintro ⟨u, hu2, _⟩; cases hu2
  | ok u =>
    simp only
    refine ⟨?_, hostVCSMap_git_or_zero _⟩
    rw [hostVCSMap_eq_git_iff]
    constructor
    · intro h; exact ⟨u, rfl, h⟩
    · rintro ⟨w, hw, h⟩
      simp only [Except.ok.injEq] at hw
      subst hw
      exact h

/-- C17. For a repository URL `u` that parses, `DetectDisplay(u)` is the three
strings `u`, `u + "/tree/master{/dir}"` and `u + "/blob/master{/dir}/{file}#L{line}"`
joined by spaces when the hostname is `github.com` or `gitlab.com`, the three strings
`u`, `u + "/src/default{/dir}"` and `u + "/src/default{/dir}/{file}#{file}-{line}"`
joined by spaces when it is `bitbucket.org`, and the empty string for any other
hostname; it is the empty string for a URL that does not parse. -/
theorem C17_detectDisplay :
    (∀ (lib : NetURL) (repoURL : String) (u : URL), lib.Parse repoURL = .ok u →
      ((lib.Hostname u = "github.com" ∨ lib.Hostname u = "gitlab.com") →
        DetectDisplay lib repoURL = " ".intercalate [repoURL,
          repoURL ++ "/tree/master\x7b/dir\x7d",
          repoURL ++ "/blob/master\x7b/dir\x7d/\x7bfile\x7d#L\x7bline\x7d"]) ∧
      (lib.Hostname u = "bitbucket.org" →
        DetectDisplay lib repoURL = " ".intercalate [repoURL,
          repoURL ++ "/src/default\x7b/dir\x7d",
          repoURL ++ "/src/default\x7b/dir\x7d/\x7bfile\x7d#\x7bfile\x7d-\x7bline\x7d"]) ∧
      ((lib.Hostname u ≠ "github.com" ∧ lib.Hostname u ≠ "gitlab.com" ∧
          lib.Hostname u ≠ "bitbucket.org") →
        DetectDisplay lib repoURL = "")) ∧
    (∀ (lib : NetURL) (repoURL : String) (err : GoError), lib.Parse repoURL = .error err →
      DetectDisplay lib repoURL = "") ∧
    (DetectDisplay goURL "https://gitlab.com/example/foo" =
        "https://gitlab.com/example/foo https://gitlab.com/example/foo/tree/master\x7b/dir\x7d https://gitlab.com/example/foo/blob/master\x7b/dir\x7d/\x7bfile\x7d#L\x7bline\x7d" ∧
      DetectDisplay goURL "https://bitbucket.org/example/foo" =
        "https://bitbucket.org/example/foo https://bitbucket.org/example/foo/src/default\x7b/dir\x7d https://bitbucket.org/example/foo/src/default\x7b/dir\x7d/\x7bfile\x7d#\x7bfile\x7d-\x7bline\x7d" ∧
      DetectDisplay goURL "" = "" ∧ DetectDisplay goURL "invalid\nurl" = "") := by
  refine ⟨?_, ?_, by decide⟩
  · intro lib repoURL u hu
    have hj : ∀ a b c : String, " ".intercalate [a, b, c] = a ++ " " ++ b ++ " " ++ c := by
      intro a b c
      simp [String.intercalate, String.intercalate.go]
    unfold DetectDisplay
    rw [hu]
    simp only
    refine ⟨?_, ?_, ?_⟩
    · intro h
      have : hostDisplayMap (lib.Hostname u) = some displayGithubOrGitlab := by
        unfold hostDisplayMap hostGithub hostGitlab
        rcases h with h | h
        · rw [if_pos h]
        · rw [h]; rfl
      rw [this, hj]
      simp [displayGithubOrGitlab, String.append_assoc]
    · intro h
      have : hostDisplayMap (lib.Hostname u) = some displayBitbucket := by
        rw [h]; rfl
      rw [this, hj]
      simp [displayBitbucket, String.append_assoc]
    · rintro ⟨h1, h2, h3⟩
      have : hostDisplayMap (lib.Hostname u) = none := by
        unfold hostDisplayMap hostGithub hostGitlab hostBitbucket
        rw [if_neg h1, if_neg h2, if_neg h3]
      rw [this]
  · intro lib repoURL err hu
    unfold DetectDisplay
    rw [hu]

/-- C17, at a concrete input: the github.com URL of the tests. -/
theorem C17_detectDisplay_witness :
    DetectDisplay goURL "https://github.com/example/foo" =
      "https://github.com/example/foo https://github.com/example/foo/tree/master\x7b/dir\x7d https://github.com/example/foo/blob/master\x7b/dir\x7d/\x7bfile\x7d#L\x7bline\x7d" :=
  (C17_detectDisplay.1 goURL "https://github.com/example/foo"
    ⟨"https", "github.com", "/example/foo", ""⟩ rfl).1 (Or.inl (by decide))

/-! ## Claims about the composite resolver -/

theorem multiResolveLoop_cons (rr : Resolver) (rest : List Resolver) (path : String) :
    multiResolveLoop (rr :: rest) path =
      if errorsIsOpt (rr.ResolvePackage path).2 ErrPackageNotFound = true
      then multiResolveLoop rest path
      else if (rr.ResolvePackage path).2 ≠ none then (Package.zero, (rr.ResolvePackage path).2)
      else ((rr.ResolvePackage path).1, none) := by
  rw [multiResolveLoop]

/-- The loop of the composite passes over resolvers that report "not found". -/
theorem multiResolveLoop_skip (pre rest : List Resolver) (path : String)
    (hpre : ∀ r ∈ pre, errorsIsOpt (r.ResolvePackage path).2 ErrPackageNotFound = true) :
    multiResolveLoop (pre ++ rest) path = multiResolveLoop rest path := by
  induction pre with
  | nil => rfl
  | cons r rs ih =>
    have hr := hpre r (List.mem_cons_self _ _)
    rw [List.cons_append, multiResolveLoop_cons, if_pos hr]
    exact ih (fun x hx => hpre x (List.mem_cons_of_mem _ hx))

/-- C18. Composite first-match-wins: if a resolver of the sequence returns a
package without error and every resolver before it returns an error that is
`ErrPackageNotFound`, the composite built by `NewMultiResolver` returns exactly
that package with no error, whatever resolvers follow. -/
theorem C18_composite_first_match_wins (pre post : List Resolver) (rk : Resolver)
    (path : String) (pkg : Package)
    (hpre : ∀ r ∈ pre, errorsIsOpt (r.ResolvePackage path).2 ErrPackageNotFound = true)
    (hk : rk.ResolvePackage path = (pkg, none)) :
    (NewMultiResolver (pre ++ rk :: post)).ResolvePackage path = (pkg, none) := by
  show multiResolveLoop (pre ++ rk :: post) path = (pkg, none)
  rw [multiResolveLoop_skip pre (rk :: post) path hpre, multiResolveLoop_cons, hk]
  rfl

/-- C18, at a concrete input: the test `second`, a resolver that reports "not
found" followed by a static resolver holding `/foo`, with a failing resolver after. -/
theorem C18_composite_first_match_wins_witness :
    (NewMultiResolver ([failingResolver (some ErrPackageNotFound)] ++
      resolverFoo :: [failingResolver (some osErrInvalid)])).ResolvePackage "/foo" =
      (pkgFoo, none) :=
  C18_composite_first_match_wins [failingResolver (some ErrPackageNotFound)]
    [failingResolver (some osErrInvalid)] resolverFoo "/foo" pkgFoo
    (by intro r hr; rw [List.mem_singleton.mp hr]; decide) (by decide)

/-- C19. Composite error propagation: if a resolver of the sequence returns an
error that is not `ErrPackageNotFound` and every resolver before it returns an
error that is `ErrPackageNotFound`, the composite returns the zero `Package` with
exactly that error; the result is the same for every sequence of resolvers that
follows. -/
theorem C19_composite_error_propagates (pre post : List Resolver) (rk : Resolver)
    (path : String) (pkg : Package) (err : GoError)
    (hpre : ∀ r ∈ pre, errorsIsOpt (r.ResolvePackage path).2 ErrPackageNotFound = true)
    (hk : rk.ResolvePackage path = (pkg, some err))
    (herr : errorsIs err ErrPackageNotFound = false) :
    (NewMultiResolver (pre ++ rk :: post)).ResolvePackage path = (Package.zero, some err) ∧
    ∀ post₂ : List Resolver,
      (NewMultiResolver (pre ++ rk :: post₂)).ResolvePackage path =
        (NewMultiResolver (pre ++ rk :: post)).ResolvePackage path := by
  have key : ∀ l : List Resolver,
      (NewMultiResolver (pre ++ rk :: l)).ResolvePackage path = (Package.zero, some err) := by
    intro l
    show multiResolveLoop (pre ++ rk :: l) path = (Package.zero, some err)
    rw [multiResolveLoop_skip pre (rk :: l) path hpre, multiResolveLoop_cons, hk]
    simp [errorsIsOpt, herr]
  exact ⟨key post, fun post₂ => by rw [key post₂, key post]⟩

/-- C19, at a concrete input: the test `fail_before_second`, preceded by a
resolver that reports "not found". -/
theorem C19_composite_error_propagates_witness :
    (NewMultiResolver ([failingResolver (some ErrPackageNotFound)] ++
        failingResolver (some osErrInvalid) :: [resolverFoo])).ResolvePackage "/foo" =
      (Package.zero, some osErrInvalid) ∧
    ∀ post₂ : List Resolver,
      (NewMultiResolver ([failingResolver (some ErrPackageNotFound)] ++
        failingResolver (some osErrInvalid) :: post₂)).ResolvePackage "/foo" =
      (NewMultiResolver ([failingResolver (some ErrPackageNotFound)] ++
        failingResolver (some osErrInvalid) :: [resolverFoo])).ResolvePackage "/foo" :=
  C19_composite_error_propagates [failingResolver (some ErrPackageNotFound)] [resolverFoo]
    (failingResolver (some osErrInvalid)) "/foo" Package.zero osErrInvalid
    (by intro r hr; rw [List.mem_singleton.mp hr]; decide) (by decide) (by decide)

/-- C20. If every wrapped resolver returns an error that is `ErrPackageNotFound`
(in particular when there is no wrapped resolver), the composite returns the
zero `Package` and `ErrPackageNotFound`. -/
theorem C20_composite_not_found (rset : List Resolver) (path : String)
    (h : ∀ r ∈ rset, errorsIsOpt (r.ResolvePackage path).2 ErrPackageNotFound = true) :
    (NewMultiResolver rset).ResolvePackage path = (Package.zero, some ErrPackageNotFound) := by
  show multiResolveLoop rset path = (Package.zero, some ErrPackageNotFound)
  have := multiResolveLoop_skip rset [] path h
  rw [List.append_nil] at this
  rw [this]
  rfl

/-- C20, at a concrete input: a resolver that reports "not found", a resolver
that reports an error wrapping it, and a static resolver that does not hold `/baz`. -/
theorem C20_composite_not_found_witness :
    (NewMultiResolver [failingResolver (some ErrPackageNotFound),
      failingResolver (some (.wrap "lookup: vanityurl: package not found" ErrPackageNotFound)),
      resolverFoo]).ResolvePackage "/baz" = (Package.zero, some ErrPackageNotFound) :=
  C20_composite_not_found _ "/baz" (by
    intro r hr
    simp only [List.mem_cons, List.mem_singleton, List.not_mem_nil, or_false] at hr
    rcases hr with h | h | h <;> rw [h] <;> decide)

/-! ## Claims about the first failing record and about `ParseVCS` -/

/-- When no duplicate is reported on the way, the loop of `NewResolver` stops
at the first record that fails to adjust, with the error of that record. -/
theorem newResolverLoop_first_failure (lib : NetURL) (pre post : List Package) (bad : Package)
    (err : GoError) (pm : List String)
    (hpre : ∀ p ∈ pre, (AdjustFields lib p).2 = none)
    (hbad : (AdjustFields lib bad).2 = some err)
    (hpw : (pre ++ [bad]).Pairwise (fun y x => x.Path ≠ adjustPath y.Path))
    (hpm : ∀ x ∈ pre ++ [bad], x.Path ∉ pm) :
    newResolverLoop lib (pre ++ bad :: post) pm = .error err := by
  induction pre generalizing pm with
  | nil =>
    have hnot : pm.contains bad.Path = false := by
      have := hpm bad (by simp)
      simpa using this
    simp only [List.nil_append]
    unfold newResolverLoop
    rw [hnot]
    simp only [Bool.false_eq_true, if_false]
    split
    · rename_i e he
      rw [he] at hbad
      simp only [Option.some.injEq] at hbad
      rw [hbad]
    · rename_i adj he
      rw [he] at hbad
      cases hbad
  | cons p ps ih =>
    have hnot : pm.contains p.Path = false := by
      have := hpm p (by simp)
      simpa using this
    rw [List.cons_append] at hpw
    obtain ⟨hp1, hp2⟩ := List.pairwise_cons.mp hpw
    rw [List.cons_append]
    unfold newResolverLoop
    rw [hnot]
    simp only [Bool.false_eq_true, if_false]
    split
    · rename_i e he
      have := hpre p (List.mem_cons_self _ _)
      rw [he] at this
      cases this
    · rename_i adj he
      have hadj : adj.Path = adjustPath p.Path := adjustFields_path lib p adj he
      have hrec := ih (adj.Path :: pm) (fun x hx => hpre x (List.mem_cons_of_mem _ hx)) hp2
        (by
          intro x hx hmem
          rcases List.mem_cons.mp hmem with h1 | h1
          · exact hp1 x hx (by rw [h1, hadj])
          · exact hpm x (List.mem_cons_of_mem _ hx) h1)
      rw [hrec]

/-- C21 (amended). For every input list in which a record fails normalization,
`NewResolver` returns no resolver and an error that wraps `ErrInvalidPackage`;
and when, up to and including the first such record, no record has a `Path` as
given that equals the normalized `Path` of an earlier record, the error is the
`AdjustFields` error of that first record, unchanged. -/
theorem C21_first_normalization_failure (lib : NetURL) (pre post : List Package)
    (bad : Package) (err : GoError)
    (hpre : ∀ p ∈ pre, (AdjustFields lib p).2 = none)
    (hbad : (AdjustFields lib bad).2 = some err) :
    (∃ e, NewResolver lib (pre ++ bad :: post) = (none, some e) ∧
      errorsIs e ErrInvalidPackage = true) ∧
    ((pre ++ [bad]).Pairwise (fun y x => x.Path ≠ adjustPath y.Path) →
      NewResolver lib (pre ++ bad :: post) = (none, some err)) := by
  constructor
  · have hloop : ∃ e, newResolverLoop lib (pre ++ bad :: post) [] = .error e := by
      apply newResolverLoop_error_append
      intro pm
      unfold newResolverLoop
      split_ifs
      · exact ⟨_, rfl⟩
      · split
        · exact ⟨_, rfl⟩
        · rename_i adj he
          rw [he] at hbad
          cases hbad
    obtain ⟨e, he⟩ := hloop
    refine ⟨e, ?_, newResolverLoop_error_is lib _ [] e he⟩
    unfold NewResolver
    rw [he]
  · intro hpw
    have := newResolverLoop_first_failure lib pre post bad err [] hpre hbad hpw
      (by intro x _ hx; cases hx)
    unfold NewResolver
    rw [this]

/-- C21 (amended), at a concrete input: the record `/bar`, then the record of
the test `invalid_package`, then the record `/foo`. -/
theorem C21_first_normalization_failure_witness :
    (∃ e, NewResolver goURL ([pkgBar] ++ pkgInvalidScheme :: [pkgFoo]) = (none, some e) ∧
      errorsIs e ErrInvalidPackage = true) ∧
    (([pkgBar] ++ [pkgInvalidScheme]).Pairwise (fun y x => x.Path ≠ adjustPath y.Path) →
      NewResolver goURL ([pkgBar] ++ pkgInvalidScheme :: [pkgFoo]) =
        (none, some (.wrap "vanityurl: invalid package: invalid repository url schema: none"
          ErrInvalidPackage))) :=
  C21_first_normalization_failure goURL [pkgBar] [pkgFoo] pkgInvalidScheme _
    (by intro p hp; rw [List.mem_singleton.mp hp]; decide) (by decide)

/-- C21 fails as stated: with the record `/foo` given twice before a record
that fails normalization, `NewResolver` returns the "duplicate paths" error of
the second record, not the `AdjustFields` error of the failing one. -/
theorem C21_duplicate_reported_first :
    AdjustFields goURL pkgFoo = (pkgFoo, none) ∧
    AdjustFields goURL pkgInvalidSchemeBaz =
      (Package.zero, some (.wrap
        "vanityurl: invalid package: invalid repository url schema: none" ErrInvalidPackage)) ∧
    NewResolver goURL [pkgFoo, pkgFoo, pkgInvalidSchemeBaz] =
      (none, some (.wrap "vanityurl: invalid package: duplicate paths: /foo"
        ErrInvalidPackage)) ∧
    GoError.wrap "vanityurl: invalid package: duplicate paths: /foo" ErrInvalidPackage ≠
      GoError.wrap "vanityurl: invalid package: invalid repository url schema: none"
        ErrInvalidPackage := by
  decide

/-- C22. `ParseVCS` returns `Git`, `Svn`, `Mercurial` and `Bazaar`, each a valid
`VCS`, without error on `git`, `svn`, `hg` and `bzr`; it succeeds on no other
string; and on every other string, the empty one included, it returns the value
0 and `ErrInvalidVCS`. -/
theorem C22_parseVCS :
    (ParseVCS "git" = (Git, none) ∧ ParseVCS "svn" = (Svn, none) ∧
      ParseVCS "hg" = (Mercurial, none) ∧ ParseVCS "bzr" = (Bazaar, none)) ∧
    (VCS.Valid Git = true ∧ VCS.Valid Svn = true ∧ VCS.Valid Mercurial = true ∧
      VCS.Valid Bazaar = true) ∧
    (∀ s : String, (ParseVCS s).2 = none ↔ (s = "git" ∨ s = "svn" ∨ s = "hg" ∨ s = "bzr")) ∧
    (∀ s : String, ¬ (s = "git" ∨ s = "svn" ∨ s = "hg" ∨ s = "bzr") →
      ParseVCS s = (0, some ErrInvalidVCS)) ∧
    ParseVCS "" = (0, some ErrInvalidVCS) ∧
    ParseVCS "unknown" = (0, some ErrInvalidVCS) := by
  refine ⟨by decide, by decide, ?_, ?_, by decide, by decide⟩
  · intro s
    unfold ParseVCS vcsMapStrKeys
    by_cases h1 : s = "git"
    · simp [h1]
    · by_cases h2 : s = "svn"
      · simp [h2]
      · by_cases h3 : s = "hg"
        · simp [h3]
        · by_cases h4 : s = "bzr"
          · simp [h4]
          · simp [h1, h2, h3, h4]
  · intro s hs
    unfold ParseVCS vcsMapStrKeys
    rw [if_neg (fun h => hs (Or.inl h)), if_neg (fun h => hs (Or.inr (Or.inl h))),
      if_neg (fun h => hs (Or.inr (Or.inr (Or.inl h)))),
      if_neg (fun h => hs (Or.inr (Or.inr (Or.inr h))))]

/-! ## Claims about the server -/

/-- Slicing from an offset within the length does not panic. -/
theorem byteDrop_isSome (n : Nat) (l : List Char) (h : n ≤ byteLen l) :
    ∃ t, byteDrop n l = some t := by
  induction l generalizing n with
  | nil =>
    have : n = 0 := by simpa [byteLen] using h
    subst this
    exact ⟨[], rfl⟩
  | cons c cs ih =>
    cases n with
    | zero => exact ⟨c :: cs, rfl⟩
    | succ m =>
      simp only [byteDrop]
      apply ih
      simp only [byteLen] at h
      omega

/-- Slicing right after a prefix gives what follows the prefix. -/
theorem byteDrop_append (a l : List Char) (n : Nat) :
    byteDrop (byteLen a + n) (a ++ l) = byteDrop n l := by
  induction a with
  | nil => simp [byteLen]
  | cons c cs ih =>
    have hpos := Char.utf8Size_pos c
    obtain ⟨m, hm⟩ : ∃ m, byteLen (c :: cs) + n = m + 1 :=
      ⟨byteLen (c :: cs) + n - 1, by simp only [byteLen]; omega⟩
    rw [hm, List.cons_append]
    simp only [byteDrop]
    have : m + 1 - c.utf8Size = byteLen cs + n := by
      simp only [byteLen] at hm; omega
    rw [this]
    exact ih

/-- The computation of the subpath never panics. -/
theorem serveSubpath_isSome (pkg : Package) (path : String) :
    ∃ sub, serveSubpath pkg path = some sub := by
  unfold serveSubpath
  split_ifs with h
  · obtain ⟨t, ht⟩ := byteDrop_isSome (goLen pkg.Path + 1) path.data (by unfold goLen at h ⊢; omega)
    exact ⟨⟨t⟩, by simp [sliceFrom, ht]⟩
  · exact ⟨"", rfl⟩

/-- The subpath of a path below the package path is what follows the separator. -/
theorem serveSubpath_of_prefix (pkg : Package) (path : String) (t : List Char)
    (h : path.data = pkg.Path.data ++ '/' :: t) : serveSubpath pkg path = some ⟨t⟩ := by
  have hlen : goLen pkg.Path < goLen path := by
    unfold goLen
    rw [h, byteLen_append]
    have := byteLen_cons_pos '/' t
    omega
  unfold serveSubpath
  rw [if_pos hlen]
  unfold sliceFrom goLen
  rw [h, byteDrop_append]
  have : byteDrop 1 ('/' :: t) = some t := by
    simp only [byteDrop]
    have : 0 + 1 - '/'.utf8Size = 0 := by decide
    rw [this]
    cases t <;> rfl
  rw [this]

theorem statusCode_httpError_fresh (msg : String) (code : Nat) :
    (httpError ResponseWriter.fresh msg code).statusCode = code := by
  rfl

/-- C23. HTTP status mapping, for every request handled with a fresh response
writer: `ServeHTTP` responds 404 when the error of the resolver is
`ErrPackageNotFound`, 500 when the resolver returns any other error, and, when
the resolver returns a package without error, 200 with the `Content-Type`
`text/html; charset=utf-8`; it never panics. -/
theorem C23_http_status_mapping (render : Package → String → String → String)
    (srv : Server) (r : Request) :
    (errorsIsOpt (srv.resolver.ResolvePackage r.Path).2 ErrPackageNotFound = true →
      ∃ w, srv.ServeHTTP render ResponseWriter.fresh r = some w ∧ w.statusCode = 404) ∧
    ((srv.resolver.ResolvePackage r.Path).2 ≠ none →
      errorsIsOpt (srv.resolver.ResolvePackage r.Path).2 ErrPackageNotFound = false →
      ∃ w, srv.ServeHTTP render ResponseWriter.fresh r = some w ∧ w.statusCode = 500) ∧
    ((srv.resolver.ResolvePackage r.Path).2 = none →
      ∃ w, srv.ServeHTTP render ResponseWriter.fresh r = some w ∧ w.statusCode = 200 ∧
        w.headerGet "Content-Type" = "text/html; charset=utf-8" ∧
        HasPrefix (w.headerGet "Content-Type") "text/html" = true) := by
  refine ⟨?_, ?_, ?_⟩
  · intro h
    refine ⟨httpError ResponseWriter.fresh "Package not found" 404, ?_, rfl⟩
    unfold Server.ServeHTTP
    simp only [h, if_true]
  · intro hne h
    refine ⟨httpError ResponseWriter.fresh "Internal Server Error" 500, ?_, rfl⟩
    unfold Server.ServeHTTP
    simp only [h, Bool.false_eq_true, if_false, hne, ne_eq, not_false_eq_true, if_true]
  · intro hnone
    obtain ⟨sub, hsub⟩ := serveSubpath_isSome (srv.resolver.ResolvePackage r.Path).1 r.Path
    refine ⟨((ResponseWriter.fresh.headerAdd "Content-Type" "text/html; charset=utf-8").headerAdd
      "Cache-Control" ("public, max-age=" ++ toString (Int.tdiv srv.cacheAge Second))).Write
      (render (srv.resolver.ResolvePackage r.Path).1 (cmpOr "" [srv.host, r.Host]) sub),
      ?_, ?_, ?_, ?_⟩
    · unfold Server.ServeHTTP
      simp only [hnone, errorsIsOpt, Bool.false_eq_true, if_false, ne_eq, not_true_eq_false,
        hsub]
    · rfl
    · rfl
    · have hget : ∀ (v d : String), (((ResponseWriter.fresh.headerAdd "Content-Type"
          "text/html; charset=utf-8").headerAdd "Cache-Control" v).Write d).headerGet
          "Content-Type" = "text/html; charset=utf-8" := fun _ _ => rfl
      rw [hget]
      decide

/-- C23, at concrete inputs: the tests `not_found`, `resolver_error` and
`with_subpath` of `server_test.go`. -/
theorem C23_http_status_mapping_witness :
    (∃ w, (NewServer (failingResolver (some ErrPackageNotFound)) none).ServeHTTP renderPlain
        ResponseWriter.fresh ⟨"/foo", "go.example.com"⟩ = some w ∧ w.statusCode = 404) ∧
    (∃ w, (NewServer (failingResolver (some osErrClosed)) none).ServeHTTP renderPlain
        ResponseWriter.fresh ⟨"/foo", "go.example.com"⟩ = some w ∧ w.statusCode = 500) ∧
    (∃ w, (NewServer resolverFoo none).ServeHTTP renderPlain
        ResponseWriter.fresh ⟨"/foo/sub/path", "go.example.com"⟩ = some w ∧
        w.statusCode = 200 ∧
        w.headerGet "Content-Type" = "text/html; charset=utf-8" ∧
        HasPrefix (w.headerGet "Content-Type") "text/html" = true) :=
  ⟨(C23_http_status_mapping renderPlain
      (NewServer (failingResolver (some ErrPackageNotFound)) none)
      ⟨"/foo", "go.example.com"⟩).1 (by decide),
    (C23_http_status_mapping renderPlain
      (NewServer (failingResolver (some osErrClosed)) none)
      ⟨"/foo", "go.example.com"⟩).2.1 (by decide) (by decide),
    (C23_http_status_mapping renderPlain (NewServer resolverFoo none)
      ⟨"/foo/sub/path", "go.example.com"⟩).2.2 (by decide)⟩

/-- C24. Subpath computation: when a resolver built by `NewResolver` resolves
the request path `p` to the package `k`, the subpath that `ServeHTTP` computes
and passes to the rendering is empty when `k.Path` is `p`, and otherwise
satisfies `k.Path + "/" + subpath == p`. -/
theorem C24_subpath_computation (lib : NetURL) (input : List Package) (r : resolver)
    (p : String) (k : Package)
    (hnew : NewResolver lib input = (some r, none))
    (hres : r.ResolvePackage p = (k, none)) :
    ∃ sub, serveSubpath k p = some sub ∧
      (k.Path = p → sub = "") ∧
      (k.Path ≠ p → k.Path ++ "/" ++ sub = p) ∧
      ∀ (render : Package → String → String → String) (host reqHost : String)
        (cacheAge : Duration) (w : ResponseWriter),
        Server.ServeHTTP render ⟨host, cacheAge, r.toResolver⟩ w ⟨p, reqHost⟩ =
          some (((w.headerAdd "Content-Type" "text/html; charset=utf-8").headerAdd
            "Cache-Control" ("public, max-age=" ++ toString (Int.tdiv cacheAge Second))).Write
            (render k (cmpOr "" [host, reqHost]) sub)) := by
  obtain ⟨hs, _⟩ := newResolver_ok lib input r hnew
  obtain ⟨_, hown⟩ := resolve_sound r.pset hs p k hres
  have hserve : ∀ sub, serveSubpath k p = some sub →
      ∀ (render : Package → String → String → String) (host reqHost : String)
        (cacheAge : Duration) (w : ResponseWriter),
        Server.ServeHTTP render ⟨host, cacheAge, r.toResolver⟩ w ⟨p, reqHost⟩ =
          some (((w.headerAdd "Content-Type" "text/html; charset=utf-8").headerAdd
            "Cache-Control" ("public, max-age=" ++ toString (Int.tdiv cacheAge Second))).Write
            (render k (cmpOr "" [host, reqHost]) sub)) := by
    intro sub hsub render host reqHost cacheAge w
    unfold Server.ServeHTTP
    simp only [resolver.toResolver, hres, errorsIsOpt, Bool.false_eq_true, if_false, ne_eq,
      not_true_eq_false, hsub]
  rcases hown with heq | hpre
  · have hsub : serveSubpath k p = some "" := by
      unfold serveSubpath
      rw [heq, if_neg (Nat.lt_irrefl _)]
    exact ⟨"", hsub, fun _ => rfl, fun hne => absurd heq hne, hserve "" hsub⟩
  · obtain ⟨t, ht⟩ := (hasPrefix_iff _ _).mp hpre
    simp only [String.data_append, List.append_assoc] at ht
    have ht2 : p.data = k.Path.data ++ '/' :: t := ht
    have hsub := serveSubpath_of_prefix k p t ht2
    refine ⟨⟨t⟩, hsub, ?_, ?_, hserve ⟨t⟩ hsub⟩
    · intro heq
      have := goLen_lt_of_hasPrefix_slash p k.Path hpre
      rw [heq] at this
      exact absurd this (Nat.lt_irrefl _)
    · intro _
      apply String.ext
      simp only [String.data_append, List.append_assoc]
      exact ht.symm

/-- C24, at a concrete input: the test `with_subpath`, the path `/foo/sub/path`
under the record `/foo`. -/
theorem C24_subpath_computation_witness :
    ∃ sub, serveSubpath pkgFoo "/foo/sub/path" = some sub ∧
      (pkgFoo.Path = "/foo/sub/path" → sub = "") ∧
      (pkgFoo.Path ≠ "/foo/sub/path" → pkgFoo.Path ++ "/" ++ sub = "/foo/sub/path") ∧
      ∀ (render : Package → String → String → String) (host reqHost : String)
        (cacheAge : Duration) (w : ResponseWriter),
        Server.ServeHTTP render ⟨host, cacheAge, resolver.toResolver ⟨[pkgFoo]⟩⟩ w
          ⟨"/foo/sub/path", reqHost⟩ =
          some (((w.headerAdd "Content-Type" "text/html; charset=utf-8").headerAdd
            "Cache-Control" ("public, max-age=" ++ toString (Int.tdiv cacheAge Second))).Write
            (render pkgFoo (cmpOr "" [host, reqHost]) sub)) :=
  C24_subpath_computation goURL [pkgFoo] ⟨[pkgFoo]⟩ "/foo/sub/path" pkgFoo
    (by decide) (by decide)

/-- C25. For every resolver `r` and options `o`, the server `NewServer(r, o)` has
`Resolver()` equal to `r`, `Host()` equal to `o.Host` (empty when `o` is `nil`), and
`CacheAge()` equal to `o.CacheAge` when `o` is not `nil` and `o.CacheAge > 0`, and to
24 hours otherwise; so `CacheAge()` is strictly positive. -/
theorem C25_newServer (r : Resolver) (o : Option ServerOptions) :
    (NewServer r o).Resolver = r ∧
    (NewServer r o).Host = (match o with
      | none => ""
      | some opts => opts.Host) ∧
    (NewServer r o).CacheAge = (match o with
      | none => 24 * 3600 * 1000000000
      | some opts => if opts.CacheAge > 0 then opts.CacheAge else 24 * 3600 * 1000000000) ∧
    0 < (NewServer r o).CacheAge := by
  have hd : defaultServerOptions.CacheAge = 24 * 3600 * 1000000000 := by decide
  have hpos : (0 : Int) < 24 * 3600 * 1000000000 := by decide
  cases o with
  | none =>
    have hc : (NewServer r none).CacheAge = 24 * 3600 * 1000000000 := rfl
    refine ⟨rfl, rfl, hc, ?_⟩
    rw [hc]
    exact hpos
  | some opts =>
    have hh : (NewServer r (some opts)).Host = opts.Host := by
      unfold NewServer Server.Host
      simp only
      by_cases h : opts.CacheAge ≤ 0
      · rw [if_pos h]
      · rw [if_neg h]
    have hc : (NewServer r (some opts)).CacheAge =
        if opts.CacheAge ≤ 0 then defaultServerOptions.CacheAge else opts.CacheAge := by
      unfold NewServer Server.CacheAge
      simp only
      by_cases h : opts.CacheAge ≤ 0
      · rw [if_pos h, if_pos h]
      · rw [if_neg h, if_neg h]
    refine ⟨rfl, hh, ?_, ?_⟩
    · rw [hc]
      show (if opts.CacheAge ≤ 0 then defaultServerOptions.CacheAge else opts.CacheAge) =
        if opts.CacheAge > 0 then opts.CacheAge else 24 * 3600 * 1000000000
      by_cases h : opts.CacheAge ≤ 0
      · rw [if_pos h, if_neg (not_lt.mpr h), hd]
      · rw [if_neg h, if_pos (not_le.mp h)]
    · rw [hc]
      by_cases h : opts.CacheAge ≤ 0
      · rw [if_pos h, hd]
        exact hpos
      · rw [if_neg h]
        exact not_le.mp h

/-! ## Claims about the record set and the fast path -/

theorem forall₂_adjust_map (lib : NetURL) (input adjs : List Package)
    (h : List.Forall₂ (fun pkg adj => AdjustFields lib pkg = (adj, none)) input adjs) :
    adjs = input.map (fun pkg => (AdjustFields lib pkg).1) ∧
    ∀ pkg ∈ input, (AdjustFields lib pkg).2 = none := by
  induction h with
  | nil => exact ⟨rfl, fun _ hp => by cases hp⟩
  | cons hab _ ih =>
    refine ⟨?_, ?_⟩
    · rw [List.map_cons, ← ih.1, hab]
    · intro pkg hp
      rcases List.mem_cons.mp hp with h1 | h1
      · rw [h1, hab]
      · exact ih.2 pkg h1

/-- C27. Sorted-set invariant: whenever `NewResolver` succeeds, every input
record adjusts without error, the record sequence of the resolver is a
permutation of the adjusted input records, and it is in ascending order of
`Path`: no record is followed, at any distance, by a record with a smaller `Path`. -/
theorem C27_sorted_set_invariant (lib : NetURL) (input : List Package) (r : resolver)
    (h : NewResolver lib input = (some r, none)) :
    (∀ pkg ∈ input, (AdjustFields lib pkg).2 = none) ∧
    r.pset.Perm (input.map (fun pkg => (AdjustFields lib pkg).1)) ∧
    r.pset.Pairwise (fun a b => strLt b.Path a.Path = false) ∧
    (∀ i j, i < j → j < r.pset.length →
      strLt (psetAt r.pset j).Path (psetAt r.pset i).Path = false) := by
  obtain ⟨hs, adjs, hf, hperm⟩ := newResolver_ok lib input r h
  obtain ⟨hmap, hok⟩ := forall₂_adjust_map lib input adjs hf
  refine ⟨hok, by rw [← hmap]; exact hperm, hs, ?_⟩
  intro i j hij hj
  exact sorted_psetAt_le r.pset hs i j (Nat.le_of_lt hij) hj

/-- C27, at a concrete input: the records `/foo` and `/bar` of the tests. -/
theorem C27_sorted_set_invariant_witness :
    (∀ pkg ∈ [pkgFoo, pkgBar], (AdjustFields goURL pkg).2 = none) ∧
    [pkgBar, pkgFoo].Perm ([pkgFoo, pkgBar].map (fun pkg => (AdjustFields goURL pkg).1)) ∧
    [pkgBar, pkgFoo].Pairwise (fun a b => strLt b.Path a.Path = false) ∧
    (∀ i j, i < j → j < [pkgBar, pkgFoo].length →
      strLt (psetAt [pkgBar, pkgFoo] j).Path (psetAt [pkgBar, pkgFoo] i).Path = false) :=
  C27_sorted_set_invariant goURL [pkgFoo, pkgBar] ⟨[pkgBar, pkgFoo]⟩ (by decide)

/-- Two strings of the same length that are prefixes of one string are equal. -/
theorem eq_of_prefix_same_len (a b x y : List Char) (h : a ++ x = b ++ y)
    (hlen : byteLen a = byteLen b) : a = b := by
  rcases List.append_eq_append_iff.mp h with ⟨c, hc, _⟩ | ⟨c, hc, _⟩
  · cases c with
    | nil => simpa using hc.symm
    | cons d ds =>
      rw [hc, byteLen_append] at hlen
      have := byteLen_cons_pos d ds
      omega
  · cases c with
    | nil => simpa using hc
    | cons d ds =>
      rw [hc, byteLen_append] at hlen
      have := byteLen_cons_pos d ds
      omega

/-- When the immediate-predecessor step applies, the preceding record is a
longest record whose `Path + "/"` is a prefix of the request path. -/
theorem predecessor_is_longest (pset : List Package) (hs : SortedByPath pset) (path : String)
    (hnex : ¬ (sortSearch pset.length (fun i => strGe (psetAt pset i).Path path) < pset.length ∧
      (psetAt pset (sortSearch pset.length (fun i => strGe (psetAt pset i).Path path))).Path
        = path))
    (hpre : sortSearch pset.length (fun i => strGe (psetAt pset i).Path path) > 0 ∧
      HasPrefix path ((psetAt pset
        (sortSearch pset.length (fun i => strGe (psetAt pset i).Path path) - 1)).Path ++ "/")
        = true)
    (rec : Package) (hrec : rec ∈ pset) (hown : HasPrefix path (rec.Path ++ "/") = true) :
    goLen rec.Path ≤ goLen (psetAt pset
      (sortSearch pset.length (fun i => strGe (psetAt pset i).Path path) - 1)).Path := by
  have hres : resolver.ResolvePackage ⟨pset⟩ path = (psetAt pset
      (sortSearch pset.length (fun i => strGe (psetAt pset i).Path path) - 1), none) := by
    unfold resolver.ResolvePackage
    simp only
    rw [if_neg hnex, if_pos hpre]
  by_contra hlt
  exact resolve_most_specific pset hs path _ hres rec hrec (by omega) (Or.inr hown)

/-- On a sequence sorted by `Path` without two records of the same `Path`, the
lookup and its variant without the immediate-predecessor step agree. -/
theorem resolve_eq_scanOnly (pset : List Package) (hs : SortedByPath pset)
    (hnd : (pset.map (fun pkg => pkg.Path)).Nodup) (path : String) :
    resolver.ResolvePackage ⟨pset⟩ path = resolver.ResolvePackageScanOnly ⟨pset⟩ path := by
  obtain ⟨hin, _, _⟩ := sortSearch_sorted pset hs path
  unfold resolver.ResolvePackage resolver.ResolvePackageScanOnly
  simp only
  by_cases h1 : sortSearch pset.length (fun i => strGe (psetAt pset i).Path path) < pset.length ∧
      (psetAt pset (sortSearch pset.length (fun i => strGe (psetAt pset i).Path path))).Path
        = path
  · rw [if_pos h1, if_pos h1]
  · rw [if_neg h1, if_neg h1]
    by_cases h2 : sortSearch pset.length (fun i => strGe (psetAt pset i).Path path) > 0 ∧
        HasPrefix path ((psetAt pset
          (sortSearch pset.length (fun i => strGe (psetAt pset i).Path path) - 1)).Path ++ "/")
          = true
    · rw [if_pos h2]
      have hk1 : sortSearch pset.length (fun i => strGe (psetAt pset i).Path path) - 1
          < pset.length := by omega
      have hkmem : psetAt pset
          (sortSearch pset.length (fun i => strGe (psetAt pset i).Path path) - 1) ∈
          pset.take (sortSearch pset.length (fun i => strGe (psetAt pset i).Path path)) := by
        rw [psetAt_eq pset _ hk1]
        exact List.mem_take_iff_getElem.mpr ⟨_, by omega, rfl⟩
      have hinv := scanInv_scanLoop pset
        (sortSearch pset.length (fun i => strGe (psetAt pset i).Path path)) path
      obtain ⟨_, hmm⟩ := hinv
      split
      · rename_i k2 hm
        rw [hm] at hmm
        obtain ⟨hk2mem, hk2pre, _, hk2max⟩ := hmm
        have hle1 := hk2max _ hkmem h2.2
        have hle2 := predecessor_is_longest pset hs path h1 h2 k2
          (List.mem_of_mem_take hk2mem) hk2pre
        obtain ⟨t1, ht1⟩ := (hasPrefix_iff _ _).mp h2.2
        obtain ⟨t2, ht2⟩ := (hasPrefix_iff _ _).mp hk2pre
        simp only [String.data_append, List.append_assoc] at ht1 ht2
        rw [ht1] at ht2
        have hpath := eq_of_prefix_same_len _ _ _ _ ht2 (by unfold goLen at hle1 hle2; omega)
        have heq : psetAt pset
            (sortSearch pset.length (fun i => strGe (psetAt pset i).Path path) - 1) = k2 :=
          List.inj_on_of_nodup_map hnd (psetAt_mem pset _ hk1) (List.mem_of_mem_take hk2mem)
            (String.ext hpath)
        rw [heq]
      · rename_i hm
        rw [hm] at hmm
        have := hmm.2 _ hkmem
        rw [h2.2] at this
        cases this
    · rw [if_neg h2]

/-- C28 (amended). The immediate-predecessor fast path is a pure optimisation
on a record sequence sorted ascending by `Path` in which no two records have the
same `Path`: with `i` the index returned by the binary search, if `i > 0` and the
request path starts with `records[i-1].Path + "/"`, then `records[i-1]` is a record
of the sequence and no record whose `Path + "/"` is a prefix of the request path
has a longer `Path`; and `ResolvePackage` returns the same result as the variant
that skips this step and always runs the general scan. -/
theorem C28_fast_path_is_optimisation (pset : List Package) (hs : SortedByPath pset)
    (hnd : (pset.map (fun pkg => pkg.Path)).Nodup) (p : String) :
    ((sortSearch pset.length (fun i => strGe (psetAt pset i).Path p) > 0 ∧
        HasPrefix p ((psetAt pset
          (sortSearch pset.length (fun i => strGe (psetAt pset i).Path p) - 1)).Path ++ "/")
          = true) →
      psetAt pset (sortSearch pset.length (fun i => strGe (psetAt pset i).Path p) - 1) ∈ pset ∧
      ∀ rec ∈ pset, HasPrefix p (rec.Path ++ "/") = true →
        goLen rec.Path ≤ goLen (psetAt pset
          (sortSearch pset.length (fun i => strGe (psetAt pset i).Path p) - 1)).Path) ∧
    resolver.ResolvePackage ⟨pset⟩ p = resolver.ResolvePackageScanOnly ⟨pset⟩ p := by
  refine ⟨?_, resolve_eq_scanOnly pset hs hnd p⟩
  intro hpre
  obtain ⟨hin, hlo, hge⟩ := sortSearch_sorted pset hs p
  refine ⟨psetAt_mem pset _ (by omega), ?_⟩
  intro rec hrec hown
  by_contra hlt
  have hkr := strLt_of_both_prefix p _ rec.Path hpre.2 hown (by omega)
  have hrp := strLt_of_hasPrefix_slash p rec.Path hown
  obtain ⟨m, hm, hmr⟩ := exists_psetAt_of_mem pset rec hrec
  by_cases hmi : m < sortSearch pset.length (fun i => strGe (psetAt pset i).Path p)
  · have := sorted_psetAt_le pset hs m
      (sortSearch pset.length (fun i => strGe (psetAt pset i).Path p) - 1)
      (by omega) (by omega)
    rw [hmr, hkr] at this
    cases this
  · have := hge m (by omega) hm
    rw [hmr, hrp] at this
    cases this

/-- C28 (amended), at a concrete input: the records `/foo` and `/foo/bar` and the
request path `/foo/bar/baz`. -/
theorem C28_fast_path_is_optimisation_witness :
    ((sortSearch [pkgFoo, pkgFooBar].length
          (fun i => strGe (psetAt [pkgFoo, pkgFooBar] i).Path "/foo/bar/baz") > 0 ∧
        HasPrefix "/foo/bar/baz" ((psetAt [pkgFoo, pkgFooBar]
          (sortSearch [pkgFoo, pkgFooBar].length
            (fun i => strGe (psetAt [pkgFoo, pkgFooBar] i).Path "/foo/bar/baz") - 1)).Path
            ++ "/") = true) →
      psetAt [pkgFoo, pkgFooBar] (sortSearch [pkgFoo, pkgFooBar].length
        (fun i => strGe (psetAt [pkgFoo, pkgFooBar] i).Path "/foo/bar/baz") - 1)
        ∈ [pkgFoo, pkgFooBar] ∧
      ∀ rec ∈ [pkgFoo, pkgFooBar], HasPrefix "/foo/bar/baz" (rec.Path ++ "/") = true →
        goLen rec.Path ≤ goLen (psetAt [pkgFoo, pkgFooBar]
          (sortSearch [pkgFoo, pkgFooBar].length
            (fun i => strGe (psetAt [pkgFoo, pkgFooBar] i).Path "/foo/bar/baz") - 1)).Path) ∧
    resolver.ResolvePackage ⟨[pkgFoo, pkgFooBar]⟩ "/foo/bar/baz" =
      resolver.ResolvePackageScanOnly ⟨[pkgFoo, pkgFooBar]⟩ "/foo/bar/baz" :=
  C28_fast_path_is_optimisation [pkgFoo, pkgFooBar] (by unfold SortedByPath; decide)
    (by decide) "/foo/bar/baz"

/-- C28 fails as stated: the sequence of two records with the same path `/foo`
is sorted ascending by `Path` (and `NewResolver` builds it from the paths `/foo`
and `foo`); for the request path `/foo/x` the fast path returns the second
record, while the general scan returns the first. -/
theorem C28_fast_path_differs_on_equal_paths :
    [pkgFoo, pkgFooOther].Pairwise (fun a b => strLt b.Path a.Path = false) ∧
    NewResolver goURL [pkgFoo, pkgFooOtherRelative] = (some ⟨[pkgFoo, pkgFooOther]⟩, none) ∧
    resolver.ResolvePackage ⟨[pkgFoo, pkgFooOther]⟩ "/foo/x" = (pkgFooOther, none) ∧
    resolver.ResolvePackageScanOnly ⟨[pkgFoo, pkgFooOther]⟩ "/foo/x" = (pkgFoo, none) ∧
    pkgFooOther ≠ pkgFoo := by
  decide

/-! ## Claims about the names of the version control kinds -/

theorem vcs_valid_iff (v : VCS) :
    VCS.Valid v = true ↔ (v = Git ∨ v = Svn ∨ v = Mercurial ∨ v = Bazaar) := by
  simp [VCS.Valid, validVCS]

/-- C29. VCS string round trip: for every `VCS` value `v`, `ParseVCS(v.String())`
succeeds if and only if `v` is valid, and then returns `v`; for every string
`s` on which `ParseVCS` succeeds with `v`, `v.String()` is `s`; and for every
invalid `v`, 0 included, `v.String()` is `unspecified`. -/
theorem C29_vcs_string_round_trip :
    (∀ v : VCS, ((ParseVCS v.String).2 = none ↔ VCS.Valid v = true) ∧
      (VCS.Valid v = true → ParseVCS v.String = (v, none)) ∧
      (VCS.Valid v = false → v.String = "unspecified")) ∧
    (∀ (s : String) (v : VCS), ParseVCS s = (v, none) → v.String = s) ∧
    VCS.String 0 = "unspecified" := by
  refine ⟨?_, ?_, by decide⟩
  · intro v
    by_cases hv : VCS.Valid v = true
    · have hcases := (vcs_valid_iff v).mp hv
      have hparse : ParseVCS v.String = (v, none) := by
        rcases hcases with h | h | h | h <;> rw [h] <;> decide
      exact ⟨⟨fun _ => hv, fun _ => by rw [hparse]⟩, fun _ => hparse,
        fun hf => by rw [hv] at hf; cases hf⟩
    · have hne : ¬ (v = Git ∨ v = Svn ∨ v = Mercurial ∨ v = Bazaar) :=
        fun h => hv ((vcs_valid_iff v).mpr h)
      have hstr : v.String = "unspecified" := by
        unfold VCS.String vcsMapStrValues
        rw [if_neg (fun h => hne (Or.inl h)), if_neg (fun h => hne (Or.inr (Or.inl h))),
          if_neg (fun h => hne (Or.inr (Or.inr (Or.inl h)))),
          if_neg (fun h => hne (Or.inr (Or.inr (Or.inr h))))]
        decide
      refine ⟨⟨fun h => ?_, fun h => absurd h hv⟩, fun h => absurd h hv, fun _ => hstr⟩
      rw [hstr] at h
      exact absurd h (by decide)
  · intro s v h
    unfold ParseVCS vcsMapStrKeys at h
    by_cases h1 : s = "git"
    · rw [if_pos h1] at h
      simp only [Prod.mk.injEq, and_true] at h
      rw [← h, h1]; decide
    · rw [if_neg h1] at h
      by_cases h2 : s = "svn"
      · rw [if_pos h2] at h
        simp only [Prod.mk.injEq, and_true] at h
        rw [← h, h2]; decide
      · rw [if_neg h2] at h
        by_cases h3 : s = "hg"
        · rw [if_pos h3] at h
          simp only [Prod.mk.injEq, and_true] at h
          rw [← h, h3]; decide
        · rw [if_neg h3] at h
          by_cases h4 : s = "bzr"
          · rw [if_pos h4] at h
            simp only [Prod.mk.injEq, and_true] at h
            rw [← h, h4]; decide
          · rw [if_neg h4] at h
            simp at h

/-- C29, at concrete inputs: `Mercurial` is written `hg` and read back, and the
string `bzr` is read as `Bazaar` and written back. -/
theorem C29_vcs_string_round_trip_witness :
    ParseVCS (VCS.String Mercurial) = (Mercurial, none) ∧ VCS.String Bazaar = "bzr" :=
  ⟨(C29_vcs_string_round_trip.1 Mercurial).2.1 (by decide),
    C29_vcs_string_round_trip.2.1 "bzr" Bazaar (by decide)⟩

/-! ## Flattening of composite resolvers -/

/-- A composite in first position behaves as its resolvers written in its place. -/
theorem multiResolveLoop_nested (B C : List Resolver) (path : String) :
    multiResolveLoop (NewMultiResolver B :: C) path = multiResolveLoop (B ++ C) path := by
  induction B with
  | nil =>
    rw [multiResolveLoop_cons]
    have : (NewMultiResolver []).ResolvePackage path = (Package.zero, some ErrPackageNotFound) :=
      rfl
    rw [this, if_pos (by decide)]
    rfl
  | cons b bs ih =>
    have hinner : (NewMultiResolver (b :: bs)).ResolvePackage path =
        multiResolveLoop (b :: bs) path := rfl
    have hinner2 : (NewMultiResolver bs).ResolvePackage path = multiResolveLoop bs path := rfl
    rw [multiResolveLoop_cons, hinner, List.cons_append, multiResolveLoop_cons b (bs ++ C),
      multiResolveLoop_cons b bs]
    by_cases h1 : errorsIsOpt (b.ResolvePackage path).2 ErrPackageNotFound = true
    · simp only [h1, if_true]
      rw [← ih, multiResolveLoop_cons, hinner2]
    · have hX : (if errorsIsOpt (b.ResolvePackage path).2 ErrPackageNotFound = true
            then multiResolveLoop bs path
          else if (b.ResolvePackage path).2 ≠ none
            then (Package.zero, (b.ResolvePackage path).2)
          else ((b.ResolvePackage path).1, none)) =
          (if (b.ResolvePackage path).2 ≠ none
            then (Package.zero, (b.ResolvePackage path).2)
          else ((b.ResolvePackage path).1, none)) := if_neg h1
      rw [hX, if_neg h1]
      by_cases h2 : (b.ResolvePackage path).2 = none
      · have hY : (if (b.ResolvePackage path).2 ≠ none
              then (Package.zero, (b.ResolvePackage path).2)
            else ((b.ResolvePackage path).1, none)) = ((b.ResolvePackage path).1, none) :=
          if_neg (not_not.mpr h2)
        rw [hY]
        simp [errorsIsOpt]
      · have hY : (if (b.ResolvePackage path).2 ≠ none
              then (Package.zero, (b.ResolvePackage path).2)
            else ((b.ResolvePackage path).1, none)) = (Package.zero, (b.ResolvePackage path).2) :=
          if_pos h2
        rw [hY]
        simp only
        rw [if_neg h1, if_pos h2]

/-- C30. Composite resolvers flatten: for all sequences of resolvers `A`, `B`, `C`
and every path, `NewMultiResolver(A..., NewMultiResolver(B...), C...)` returns exactly
the result of `NewMultiResolver(A..., B..., C...)`: the same package on success, the
same error otherwise, hence the same outcome among success, "not found" and
another error. -/
theorem C30_composite_flattens (A B C : List Resolver) (path : String) :
    (NewMultiResolver (A ++ NewMultiResolver B :: C)).ResolvePackage path =
      (NewMultiResolver (A ++ B ++ C)).ResolvePackage path := by
  show multiResolveLoop (A ++ NewMultiResolver B :: C) path =
    multiResolveLoop (A ++ B ++ C) path
  induction A with
  | nil =>
    rw [List.nil_append, List.nil_append]
    exact multiResolveLoop_nested B C path
  | cons a as ih =>
    rw [List.cons_append, List.cons_append, List.cons_append, multiResolveLoop_cons,
      multiResolveLoop_cons a (as ++ B ++ C), ih]

/-- C30, at a concrete input: a failing resolver after a nested composite that
holds a "not found" resolver and the static resolver of `/foo`. -/
theorem C30_composite_flattens_witness :
    (NewMultiResolver ([failingResolver (some ErrPackageNotFound)] ++
      NewMultiResolver [failingResolver (some ErrPackageNotFound), resolverFoo] ::
      [failingResolver (some osErrInvalid)])).ResolvePackage "/foo/x" = (pkgFoo, none) ∧
    (NewMultiResolver ([failingResolver (some ErrPackageNotFound)] ++
      [failingResolver (some ErrPackageNotFound), resolverFoo] ++
      [failingResolver (some osErrInvalid)])).ResolvePackage "/foo/x" = (pkgFoo, none) :=
  ⟨by decide,
    (C30_composite_flattens [failingResolver (some ErrPackageNotFound)]
      [failingResolver (some ErrPackageNotFound), resolverFoo]
      [failingResolver (some osErrInvalid)] "/foo/x") ▸ (by decide)⟩

/-! ## Independence of the input order -/

/-- A sequence sorted by `Path` without two records of the same `Path` is in
strictly ascending order. -/
theorem sorted_nodup_strict (l : List Package) (hs : SortedByPath l)
    (hnd : (l.map (fun pkg => pkg.Path)).Nodup) :
    l.Pairwise (fun a b => strLt a.Path b.Path = true) := by
  have hne : l.Pairwise (fun a b => a.Path ≠ b.Path) := List.pairwise_map.mp hnd
  refine (hs.and hne).imp ?_
  intro a b h
  rcases lexLt_trichotomy a.Path.data b.Path.data with h1 | h1 | h1
  · exact h1
  · exact absurd (String.ext h1) h.2
  · have h2 : strLt b.Path a.Path = true := h1
    rw [h.1] at h2
    cases h2

/-- Two sequences with the same records, both sorted by `Path`, without two
records of the same `Path`, are equal. -/
theorem sorted_perm_unique (l₁ l₂ : List Package) (hp : l₁.Perm l₂) (hs₁ : SortedByPath l₁)
    (hs₂ : SortedByPath l₂) (hnd : (l₁.map (fun pkg => pkg.Path)).Nodup) : l₁ = l₂ := by
  have hnd₂ : (l₂.map (fun pkg => pkg.Path)).Nodup := (hp.map _).nodup_iff.mp hnd
  have h₁ := sorted_nodup_strict l₁ hs₁ hnd
  have h₂ := sorted_nodup_strict l₂ hs₂ hnd₂
  refine List.Perm.eq_of_sorted ?_ h₁ h₂ hp
  intro a b _ _ hab hba
  have := lexLt_asymm hab
  have hba2 : lexLt b.Path.data a.Path.data = true := hba
  rw [this] at hba2
  cases hba2

/-- C31. Resolution is independent of the input order: for two input lists
that are permutations of each other and whose normalized paths are pairwise
distinct, if `NewResolver` succeeds on both, the two resolvers hold the same
record sequence and return the same result for every request path: the same
package, or `ErrPackageNotFound` for both. -/
theorem C31_resolution_independent_of_input_order (lib : NetURL) (input₁ input₂ : List Package)
    (r₁ r₂ : resolver) (hperm : input₁.Perm input₂)
    (hnd : (input₁.map (fun pkg => (AdjustFields lib pkg).1.Path)).Nodup)
    (h₁ : NewResolver lib input₁ = (some r₁, none))
    (h₂ : NewResolver lib input₂ = (some r₂, none)) :
    r₁.pset = r₂.pset ∧ ∀ p : String, r₁.ResolvePackage p = r₂.ResolvePackage p := by
  obtain ⟨hs₁, adjs₁, hf₁, hp₁⟩ := newResolver_ok lib input₁ r₁ h₁
  obtain ⟨hs₂, adjs₂, hf₂, hp₂⟩ := newResolver_ok lib input₂ r₂ h₂
  obtain ⟨hm₁, _⟩ := forall₂_adjust_map lib input₁ adjs₁ hf₁
  obtain ⟨hm₂, _⟩ := forall₂_adjust_map lib input₂ adjs₂ hf₂
  have hpp : r₁.pset.Perm r₂.pset := by
    refine hp₁.trans (List.Perm.trans ?_ hp₂.symm)
    rw [hm₁, hm₂]
    exact hperm.map _
  have hnd₁ : (r₁.pset.map (fun pkg => pkg.Path)).Nodup := by
    have hnd' : (adjs₁.map (fun pkg => pkg.Path)).Nodup := by
      rw [hm₁, List.map_map]
      exact hnd
    exact ((hp₁.map _).nodup_iff).mpr hnd'
  have heq := sorted_perm_unique r₁.pset r₂.pset hpp hs₁ hs₂ hnd₁
  refine ⟨heq, fun p => ?_⟩
  cases r₁
  cases r₂
  simp only at heq
  rw [heq]

/-- C31, at a concrete input: the records `/foo`, `/bar` and `/foo/bar` in two
orders give the same record sequence, hence the same results. -/
theorem C31_resolution_independent_of_input_order_witness :
    NewResolver goURL [pkgFoo, pkgBar, pkgFooBar] =
      (some ⟨[pkgBar, pkgFoo, pkgFooBar]⟩, none) ∧
    NewResolver goURL [pkgFooBar, pkgBar, pkgFoo] =
      (some ⟨[pkgBar, pkgFoo, pkgFooBar]⟩, none) ∧
    ((⟨[pkgBar, pkgFoo, pkgFooBar]⟩ : resolver).pset =
        (⟨[pkgBar, pkgFoo, pkgFooBar]⟩ : resolver).pset ∧
      ∀ p : String, resolver.ResolvePackage ⟨[pkgBar, pkgFoo, pkgFooBar]⟩ p =
        resolver.ResolvePackage ⟨[pkgBar, pkgFoo, pkgFooBar]⟩ p) :=
  ⟨by decide, by decide,
    C31_resolution_independent_of_input_order goURL [pkgFoo, pkgBar, pkgFooBar]
      [pkgFooBar, pkgBar, pkgFoo] ⟨[pkgBar, pkgFoo, pkgFooBar]⟩ ⟨[pkgBar, pkgFoo, pkgFooBar]⟩
      (by decide) (by decide) (by decide) (by decide)⟩

/-! ## The slice of the request path -/

/-- Slicing from an offset beyond the length panics. -/
theorem byteDrop_eq_none (n : Nat) (l : List Char) (h : byteLen l < n) :
    byteDrop n l = none := by
  induction l generalizing n with
  | nil =>
    cases n with
    | zero => simp [byteLen] at h
    | succ m => rfl
  | cons c cs ih =>
    cases n with
    | zero => exact absurd h (Nat.not_lt_zero _)
    | succ m =>
      simp only [byteDrop]
      apply ih
      simp only [byteLen] at h
      omega

/-- The slice `s[n:]` panics exactly when `n` exceeds the length of `s`. -/
theorem sliceFrom_eq_none_iff (s : String) (n : Nat) :
    sliceFrom s n = none ↔ goLen s < n := by
  unfold sliceFrom goLen
  constructor
  · intro h
    by_contra hle
    obtain ⟨t, ht⟩ := byteDrop_isSome n s.data (by omega)
    rw [ht] at h
    cases h
  · intro h
    rw [byteDrop_eq_none n s.data h]

/-- C32. The subpath slice in `ServeHTTP` is always in bounds: the slice `p[n:]`
panics exactly when `n` exceeds `len(p)`; for every request path `p` and every
package `k`, the expression `p[len(k.Path)+1:]` is evaluated only when
`len(k.Path) < len(p)`, where its index is at most `len(p)`, so the computation of
the subpath does not panic; and `ServeHTTP` returns normally for every resolver,
response writer and request. -/
theorem C32_subpath_slice_in_bounds :
    (∀ (s : String) (n : Nat), sliceFrom s n = none ↔ goLen s < n) ∧
    (∀ (k : Package) (p : String),
      (goLen k.Path < goLen p →
        serveSubpath k p = sliceFrom p (goLen k.Path + 1) ∧ goLen k.Path + 1 ≤ goLen p) ∧
      (¬ goLen k.Path < goLen p → serveSubpath k p = some "") ∧
      ∃ sub, serveSubpath k p = some sub) ∧
    (∀ (render : Package → String → String → String) (srv : Server) (w : ResponseWriter)
      (r : Request), ∃ w₂, srv.ServeHTTP render w r = some w₂) ∧
    (serveSubpath pkgFooBar "/x" = some "" ∧ serveSubpath pkgFoo "/barbaz" = some "az" ∧
      ∃ w₂, (NewServer (constResolver pkgFooBar) none).ServeHTTP renderPlain
        ResponseWriter.fresh ⟨"/x", "go.example.com"⟩ = some w₂) := by
  refine ⟨sliceFrom_eq_none_iff, ?_, ?_, ⟨by decide, by decide, ⟨_, rfl⟩⟩⟩
  · intro k p
    refine ⟨?_, ?_, serveSubpath_isSome k p⟩
    · intro h
      refine ⟨?_, by omega⟩
      unfold serveSubpath
      rw [if_pos h]
    · intro h
      unfold serveSubpath
      rw [if_neg h]
  · intro render srv w r
    obtain ⟨sub, hsub⟩ := serveSubpath_isSome (srv.resolver.ResolvePackage r.Path).1 r.Path
    unfold Server.ServeHTTP
    simp only
    split_ifs
    · exact ⟨_, rfl⟩
    · exact ⟨_, rfl⟩
    · rw [hsub]
      exact ⟨_, rfl⟩

/-- C32, at a concrete input: for the record `/foo` and the request path
`/foo/sub` the slice is taken, at an index within the length. -/
theorem C32_subpath_slice_in_bounds_witness :
    goLen pkgFoo.Path < goLen "/foo/sub" ∧
    (serveSubpath pkgFoo "/foo/sub" = sliceFrom "/foo/sub" (goLen pkgFoo.Path + 1) ∧
      goLen pkgFoo.Path + 1 ≤ goLen "/foo/sub") ∧
    serveSubpath pkgFoo "/foo/sub" = some "sub" :=
  ⟨by decide, (C32_subpath_slice_in_bounds.2.1 pkgFoo "/foo/sub").1 (by decide), by decide⟩

end Vanityurl
